import Mathlib

/-!
Verification of the knowledge-base document-retrieval engine.

This file shallowly embeds the core of the `kb` package:
the Markdown chunker (`kb/markdown.py`), the incremental indexer
(`kb/indexer.py`), the SQLite-backed store (`kb/store_sqlite.py`) and the
hybrid retriever (`kb/search.py`), and proves or refutes the specified
properties of each.

Conventions of the embedding:
- Python `str` values are modelled as `List Char`; Python `float` scores as
  `ℚ` (exact arithmetic stands in for IEEE arithmetic on the small rational
  literals the code uses); `dict` as an association list with the update
  semantics of Python dictionaries (insertion order preserved, update in
  place); fallible calls as `Except`/`Option` values.
- The SHA-256 hashing primitives (`sha256_text`, `sha256_bytes`) are opaque
  external primitives; the model takes the hash as an explicit function
  parameter so theorems hold for every choice of hash.
-/

namespace KB

/-! ### Python string primitives -/

/-- The ASCII whitespace characters recognised by Python's `str.strip()`
and the regex class `\s` (the inputs in this development are ASCII plus
CJK ideographs, for which these coincide with Python's Unicode rules). -/
def pyIsSpace (c : Char) : Bool :=
  c = ' ' || c = '\t' || c = '\n' || c = '\r' || c = '\x0b' || c = '\x0c'

/-- Python `str.strip()` on a list of characters. -/
def pyTrim (l : List Char) : List Char :=
  ((l.dropWhile pyIsSpace).reverse.dropWhile pyIsSpace).reverse

/-- Python `str.rstrip()` on a list of characters. -/
def pyTrimRight (l : List Char) : List Char :=
  (l.reverse.dropWhile pyIsSpace).reverse

/-- Python `str.lstrip()` on a list of characters. -/
def pyTrimLeft (l : List Char) : List Char :=
  l.dropWhile pyIsSpace

/-- Helper for `splitLines`: `acc` holds the reversed characters of the
line being accumulated. -/
def splitLinesAux : List Char → List Char → List (List Char)
  | acc, [] => if acc = [] then [] else [acc.reverse]
  | acc, '\n' :: rest => acc.reverse :: splitLinesAux [] rest
  | acc, c :: rest => splitLinesAux (c :: acc) rest

/-- Python `str.splitlines()` restricted to `\n` terminators (the inputs in
this development contain no exotic line separators): every `\n` ends the
current line, and a final line is emitted only when non-empty, so a
trailing `\n` produces no trailing empty line. -/
def splitLines (l : List Char) : List (List Char) :=
  splitLinesAux [] l

/-- Python `"\n".join(lines)`. -/
def joinLines (ls : List (List Char)) : List Char :=
  (ls.intersperse ['\n']).flatten

/-! ### `_split_with_overlap` (kb/markdown.py) -/

/-- The `while i < n` loop of `_split_with_overlap`: at position `i`, slice
`t[i : i + maxC]`, strip it, emit it when non-empty and either at least
`minC` long or in the final window (`i + maxC ≥ n`), then advance by
`step` unless the final window was reached.  `fuel` bounds the recursion
and is chosen large enough never to run out. -/
def splitLoop (t : List Char) (maxC minC step : Nat) : Nat → Nat → List (List Char)
  | _, 0 => []
  | i, fuel + 1 =>
    if i < t.length then
      let piece := pyTrim ((t.drop i).take maxC)
      let isLast := t.length ≤ i + maxC
      let rest := if isLast then [] else splitLoop t maxC minC step (i + step) fuel
      if piece ≠ [] ∧ (minC ≤ piece.length ∨ isLast) then piece :: rest else rest
    else []

/-- `_split_with_overlap(text, max_chars, overlap_chars, min_chars)`:
strip the text; if it fits in `maxC` characters yield it whole (when
non-empty), otherwise run the sliding-window loop with step
`max(1, maxC - overlapC)`. -/
def splitWithOverlap (text : List Char) (maxC overlapC minC : Nat) : List (List Char) :=
  let t := pyTrim text
  if t.length ≤ maxC then
    if t ≠ [] then [t] else []
  else
    splitLoop t maxC minC (max 1 (maxC - overlapC)) 0 (t.length + 1)

/-- Modelled from the spec's words for comparison with `splitLoop`: the
list of window start offsets produced by sliding a window of width `maxC`
with the given `step` from offset `i`, stopping at the first window that
reaches the end of the text. -/
def windowStarts (n maxC step : Nat) : Nat → Nat → List Nat
  | _, 0 => []
  | i, fuel + 1 =>
    if i < n then
      if n ≤ i + maxC then [i] else i :: windowStarts n maxC step (i + step) fuel
    else []

/-- Modelled from the spec's words: the piece emitted for the window at
offset `i` — the stripped slice, kept when non-empty and either at least
`minC` long or final. -/
def emitWindow (t : List Char) (maxC minC : Nat) (i : Nat) : Option (List Char) :=
  if pyTrim ((t.drop i).take maxC) ≠ [] ∧
      (minC ≤ (pyTrim ((t.drop i).take maxC)).length ∨ t.length ≤ i + maxC) then
    some (pyTrim ((t.drop i).take maxC))
  else none

/-! ### CJK normalisation (kb/store_sqlite.py) -/

/-- `_contains_cjk` on a single character: the three CJK ranges
U+4E00–U+9FFF, U+3400–U+4DBF, U+F900–U+FAFF. -/
def isCjk (c : Char) : Bool :=
  (0x4E00 ≤ c.toNat && c.toNat ≤ 0x9FFF) ||
  (0x3400 ≤ c.toNat && c.toNat ≤ 0x4DBF) ||
  (0xF900 ≤ c.toNat && c.toNat ≤ 0xFAFF)

/-- `_contains_cjk(text)`. -/
def containsCjk (l : List Char) : Bool :=
  l.any isCjk

/-- `_cjk_space(text)`: copy every character, appending a space after each
CJK character. -/
def cjkSpace : List Char → List Char
  | [] => []
  | c :: rest => if isCjk c then c :: ' ' :: cjkSpace rest else c :: cjkSpace rest

/-- `_fts_text(text)`: the index-time normalisation applied to chunk text,
title and heading path. -/
def ftsText (l : List Char) : List Char :=
  cjkSpace l

/-- The whitespace test of `_fts_query`: `" " in q or "\t" in q or "\n" in q`. -/
def hasWs (l : List Char) : Bool :=
  l.any (fun c => c = ' ' || c = '\t' || c = '\n')

/-- `_fts_query(query)`: strip; empty and whitespace-containing queries are
returned as stripped; a query containing a CJK character becomes a quoted
phrase of its CJK-spaced form (stripped, with double quotes removed). -/
def ftsQuery (query : List Char) : List Char :=
  let q := pyTrim query
  if q = [] then q
  else if hasWs q then q
  else if containsCjk q then
    let phrase := (pyTrim (cjkSpace q)).filter (· ≠ '"')
    '"' :: (phrase ++ ['"'])
  else q

/-- Modelled from the spec: the token stream the `unicode61` tokenizer
produces from space-separated text — maximal runs of non-space characters.
Only the behaviour on CJK-spaced text matters here. -/
def tokensAux : List Char → List Char → List (List Char)
  | acc, [] => if acc = [] then [] else [acc.reverse]
  | acc, c :: rest =>
    if c = ' ' then
      if acc = [] then tokensAux [] rest else acc.reverse :: tokensAux [] rest
    else tokensAux (c :: acc) rest

/-- Modelled from the spec: tokenize by splitting on spaces, dropping
empty tokens. -/
def tokens (l : List Char) : List (List Char) :=
  tokensAux [] l

/-! ### Front matter (kb/markdown.py: `parse_frontmatter`, `_parse_simple_yaml`) -/

/-- A value in the restricted front-matter YAML subset: scalar string,
boolean, or flat list of strings. -/
inductive YamlVal where
  | s (v : List Char)
  | b (v : Bool)
  | list (items : List (List Char))
deriving DecidableEq, Repr

/-- Lookup in an insertion-ordered dictionary (Python `dict` model). -/
def alookup [DecidableEq α] : List (α × β) → α → Option β
  | [], _ => none
  | (k, v) :: rest, k0 => if k0 = k then some v else alookup rest k0

/-- Assignment in an insertion-ordered dictionary: replace in place when
the key exists, append otherwise (Python `dict.__setitem__`). -/
def aset [DecidableEq α] : List (α × β) → α → β → List (α × β)
  | [], k, v => [(k, v)]
  | (k0, v0) :: rest, k, v => if k = k0 then (k, v) :: rest else (k0, v0) :: aset rest k v

/-- Python `s.strip("'" + '"')`: drop leading and trailing quote characters. -/
def stripQuotes (l : List Char) : List Char :=
  let isQ : Char → Bool := fun c => c = '\'' || c = '"'
  ((l.dropWhile isQ).reverse.dropWhile isQ).reverse

/-- Python `s.split(sep)` keeping empty fields; `acc` is the reversed
current field. -/
def splitOnAux (sep : Char) : List Char → List Char → List (List Char)
  | acc, [] => [acc.reverse]
  | acc, c :: rest =>
    if c = sep then acc.reverse :: splitOnAux sep [] rest
    else splitOnAux sep (c :: acc) rest

/-- Python `s.split(sep)`. -/
def splitOnChar (sep : Char) (l : List Char) : List (List Char) :=
  splitOnAux sep [] l

/-- One line of `_parse_simple_yaml`'s loop; the state is the dictionary
built so far together with the pending multi-line list key. -/
def yamlLine (st : List (List Char × YamlVal) × Option (List Char)) (rawLine : List Char) :
    List (List Char × YamlVal) × Option (List Char) :=
  let meta := st.1
  let curListKey := st.2
  let line := pyTrimRight rawLine
  if pyTrim line = [] then st
  else
    match curListKey with
    | some k =>
      if (pyTrimLeft line).take 2 = ['-', ' '] then
        let item := pyTrim ((pyTrimLeft line).drop 2)
        let meta2 := match alookup meta k with
          | some (YamlVal.list xs) => aset meta k (YamlVal.list (xs ++ [item]))
          | _ => meta
        (meta2, some k)
      else yamlKeyValue meta line
    | none => yamlKeyValue meta line
where
  /-- The key/value part of the loop body (runs with `cur_list_key = None`). -/
  yamlKeyValue (meta : List (List Char × YamlVal)) (line : List Char) :
      List (List Char × YamlVal) × Option (List Char) :=
    if ':' ∉ line then (meta, none)
    else
      let key := pyTrim (line.takeWhile (· ≠ ':'))
      let value := pyTrim ((line.dropWhile (· ≠ ':')).drop 1)
      if key = [] then (meta, none)
      else if value = [] then (aset meta key (YamlVal.list []), some key)
      else if value.take 1 = ['['] ∧ value.getLast? = some ']' then
        let inner := pyTrim (value.drop 1 |>.dropLast)
        if inner = [] then (aset meta key (YamlVal.list []), none)
        else
          let items := ((splitOnChar ',' inner).filter (fun v => pyTrim v ≠ [])).map
            (fun v => stripQuotes (pyTrim v))
          (aset meta key (YamlVal.list items), none)
      else if value.map Char.toLower = "true".data ∨ value.map Char.toLower = "false".data then
        (aset meta key (YamlVal.b (value.map Char.toLower = "true".data)), none)
      else (aset meta key (YamlVal.s (stripQuotes value)), none)

/-- `_parse_simple_yaml(text)`. -/
def parseSimpleYaml (text : List Char) : List (List Char × YamlVal) :=
  ((splitLines text).foldl yamlLine ([], none)).1

/-- `parse_frontmatter(lines) -> (meta, body_start)`. -/
def parseFrontmatter (lines : List (List Char)) : List (List Char × YamlVal) × Nat :=
  match lines with
  | [] => ([], 0)
  | first :: rest =>
    if pyTrim first ≠ "---".data then ([], 0)
    else
      match rest.findIdx? (fun l => pyTrim l = "---".data) with
      | none => ([], 0)
      | some j =>
        let stop := j + 1
        let raw := pyTrim (joinLines ((lines.take stop).drop 1))
        (parseSimpleYaml raw, stop + 1)

/-! ### Chunker (kb/markdown.py: `chunk_markdown`, `guess_title`) -/

/-- A chunk as produced by `chunk_markdown`; `textHash` is
`sha256_text(piece)` for the ambient hash function. -/
structure Chunk where
  chunkIndex : Nat
  headingPath : List Char
  startLine : Nat
  endLine : Nat
  text : List Char
  textHash : List Char
deriving DecidableEq, Repr

/-- The heading regex `^(#{1,6})\s+(.*\S)\s*$`: one to six `#`, at least
one whitespace character, and a non-blank remainder; yields the level and
the stripped title (the callers apply `.strip()` to group 2). -/
def parseHeading (line : List Char) : Option (Nat × List Char) :=
  let hashes := line.takeWhile (· = '#')
  let rest := line.dropWhile (· = '#')
  if 1 ≤ hashes.length ∧ hashes.length ≤ 6 ∧
      rest.head?.map pyIsSpace = some true ∧ pyTrim rest ≠ [] then
    some (hashes.length, pyTrim rest)
  else none

/-- `" > ".join` of the heading titles on the stack. -/
def joinPath (stack : List (Nat × List Char)) : List Char :=
  ((stack.map Prod.snd).intersperse " > ".data).flatten

/-- `while heading_stack and heading_stack[-1][0] >= level: pop()` —
the Python list's top is its last element. -/
def popGE (level : Nat) (stack : List (Nat × List Char)) : List (Nat × List Char) :=
  (stack.reverse.dropWhile (fun e => level ≤ e.1)).reverse

/-- The mutable state of `chunk_markdown`'s line loop. -/
structure ChunkState where
  stack : List (Nat × List Char)
  curPath : List Char
  buf : List (List Char)
  pStart : Nat
  idx : Nat
  acc : List Chunk
deriving Repr

/-- `flush_paragraph(end_line)`: join and strip the buffer; when non-empty,
prefix the current heading path (separated by a blank line), split with
overlap, and append each piece as a chunk with consecutive indices. -/
def flushParagraph (hash : List Char → List Char) (maxC overlapC minC : Nat)
    (st : ChunkState) (endLine : Nat) : ChunkState :=
  let raw := pyTrim (joinLines st.buf)
  let st1 := { st with buf := [] }
  if raw = [] then st1
  else
    let chunkText := if st.curPath ≠ [] then st.curPath ++ '\n' :: '\n' :: raw else raw
    let pieces := splitWithOverlap chunkText maxC overlapC minC
    { st1 with
      acc := st.acc ++ (pieces.enumFrom st.idx).map
        (fun p => ⟨p.1, st.curPath, st.pStart, endLine, p.2, hash p.2⟩)
      idx := st.idx + pieces.length }

/-- One iteration of `chunk_markdown`'s `for i in range(body_start,
len(lines))` loop, on the pair `(i, line)`. -/
def chunkLine (hash : List Char → List Char) (maxC overlapC minC : Nat)
    (st : ChunkState) (p : Nat × List Char) : ChunkState :=
  let i := p.1
  let line := p.2
  match parseHeading line with
  | some lt =>
    let st1 := flushParagraph hash maxC overlapC minC st i
    let newStack := popGE lt.1 st1.stack ++ [lt]
    { st1 with stack := newStack, curPath := joinPath newStack, pStart := i + 2 }
  | none =>
    if pyTrim line = [] then
      let st1 := flushParagraph hash maxC overlapC minC st (i + 1)
      { st1 with pStart := i + 2 }
    else { st with buf := st.buf ++ [line] }

/-- `chunk_markdown(text, max_chars, overlap_chars, min_chars)`. -/
def chunkMarkdown (hash : List Char → List Char) (text : List Char)
    (maxC overlapC minC : Nat) : List (List Char × YamlVal) × List Chunk :=
  let lines := splitLines text
  let fmBody := parseFrontmatter lines
  let init : ChunkState := ⟨[], [], [], fmBody.2 + 1, 0, []⟩
  let stEnd := ((lines.drop fmBody.2).enumFrom fmBody.2).foldl
    (chunkLine hash maxC overlapC minC) init
  let stFinal := flushParagraph hash maxC overlapC minC stEnd lines.length
  (fmBody.1, stFinal.acc)

/-- A chunk without its `textHash` field: everything `chunk_markdown`
produces that does not depend on the hash primitive. -/
structure BareChunk where
  chunkIndex : Nat
  headingPath : List Char
  startLine : Nat
  endLine : Nat
  text : List Char
deriving DecidableEq, Repr

/-- Forget the `textHash` field. -/
def eraseHash (c : Chunk) : BareChunk :=
  ⟨c.chunkIndex, c.headingPath, c.startLine, c.endLine, c.text⟩

/-- The hash-independent part of a `ChunkState`. -/
structure BareState where
  stack : List (Nat × List Char)
  curPath : List Char
  buf : List (List Char)
  pStart : Nat
  idx : Nat
  accBare : List BareChunk
deriving DecidableEq, Repr

/-- Strip the hash-dependent parts of a chunker state. -/
def stripState (st : ChunkState) : BareState :=
  ⟨st.stack, st.curPath, st.buf, st.pStart, st.idx, st.acc.map eraseHash⟩

/-- `flush_paragraph` on the hash-erased state: identical to
`flushParagraph` except that no `textHash` is computed. -/
def bareFlush (maxC overlapC minC : Nat) (st : BareState) (endLine : Nat) : BareState :=
  let raw := pyTrim (joinLines st.buf)
  let st1 := { st with buf := ([] : List (List Char)) }
  if raw = [] then st1
  else
    let chunkText := if st.curPath ≠ [] then st.curPath ++ '\n' :: '\n' :: raw else raw
    let pieces := splitWithOverlap chunkText maxC overlapC minC
    { st1 with
      accBare := st.accBare ++ (pieces.enumFrom st.idx).map
        (fun p => ⟨p.1, st.curPath, st.pStart, endLine, p.2⟩)
      idx := st.idx + pieces.length }

/-- One loop iteration of `chunk_markdown` on the hash-erased state. -/
def bareLine (maxC overlapC minC : Nat) (st : BareState) (p : Nat × List Char) : BareState :=
  match parseHeading p.2 with
  | some lt =>
    let st1 := bareFlush maxC overlapC minC st p.1
    let newStack := popGE lt.1 st1.stack ++ [lt]
    { st1 with stack := newStack, curPath := joinPath newStack, pStart := p.1 + 2 }
  | none =>
    if pyTrim p.2 = [] then
      let st1 := bareFlush maxC overlapC minC st (p.1 + 1)
      { st1 with pStart := p.1 + 2 }
    else { st with buf := st.buf ++ [p.2] }

/-- `chunk_markdown` on the hash-erased state: computes everything the
chunker produces except the `textHash` fields. -/
def bareChunkMarkdown (text : List Char) (maxC overlapC minC : Nat) :
    List (List Char × YamlVal) × List BareChunk :=
  let lines := splitLines text
  let fmBody := parseFrontmatter lines
  let init : BareState := ⟨[], [], [], fmBody.2 + 1, 0, []⟩
  let stEnd := ((lines.drop fmBody.2).enumFrom fmBody.2).foldl
    (bareLine maxC overlapC minC) init
  let stFinal := bareFlush maxC overlapC minC stEnd lines.length
  (fmBody.1, stFinal.accBare)

/-- `guess_title(text, fallback)`: the stripped title of the first
level-1 heading line, else the fallback. -/
def guessTitle (text fallback : List Char) : List Char :=
  ((splitLines text).findSome?
    (fun l => match parseHeading l with
      | some (1, t) => some t
      | _ => none)).getD fallback

/-! ### Link extraction (kb/markdown.py: `extract_links`) -/

/-- The kinds of link recorded by `extract_links`. -/
inductive LinkKind where
  | md
  | wiki
deriving DecidableEq, Repr

/-- A match of `\[[^\]]+\]\(([^)]+)\)` anchored at the head of `l`:
returns the capture (the target) and the total match length. -/
def mdMatchAt (l : List Char) : Option (List Char × Nat) :=
  match l with
  | '[' :: rest =>
    if rest.takeWhile (· ≠ ']') = [] then none
    else
      match rest.drop (rest.takeWhile (· ≠ ']')).length with
      | ']' :: '(' :: rest2 =>
        if rest2.takeWhile (· ≠ ')') = [] then none
        else
          match rest2.drop (rest2.takeWhile (· ≠ ')')).length with
          | ')' :: _ =>
            some (rest2.takeWhile (· ≠ ')'),
              (rest.takeWhile (· ≠ ']')).length + (rest2.takeWhile (· ≠ ')')).length + 4)
          | _ => none
      | _ => none
  | _ => none

/-- A match of `\[\[([^\]]+)\]\]` anchored at the head of `l`. -/
def wikiMatchAt (l : List Char) : Option (List Char × Nat) :=
  match l with
  | '[' :: '[' :: rest =>
    if rest.takeWhile (· ≠ ']') = [] then none
    else
      match rest.drop (rest.takeWhile (· ≠ ']')).length with
      | ']' :: ']' :: _ =>
        some (rest.takeWhile (· ≠ ']'), (rest.takeWhile (· ≠ ']')).length + 4)
      | _ => none
  | _ => none

/-- `re.finditer` over a head-anchored matcher: try a match at the current
position; on success emit `(position, capture)` and resume after the
match, otherwise advance one character.  `finditer` always advances at
least one character (`max 1`; both matchers here only ever match at least
five characters, so this equals the match length).  `fuel` starts at the
text length, which suffices because every step consumes at least one
character. -/
def scanPos (matchAt : List Char → Option (List Char × Nat)) :
    Nat → Nat → List Char → List (Nat × List Char)
  | 0, _, _ => []
  | _, _, [] => []
  | fuel + 1, pos, l@(_ :: tail) =>
    match matchAt l with
    | some tl =>
      (pos, tl.1) :: scanPos matchAt fuel (pos + max 1 tl.2) (l.drop (max 1 tl.2))
    | none => scanPos matchAt fuel (pos + 1) tail

/-- All markdown-link matches of a text, with their start positions. -/
def mdLinksPos (text : List Char) : List (Nat × List Char) :=
  scanPos mdMatchAt text.length 0 text

/-- All wiki-link matches of a text, with their start positions. -/
def wikiLinksPos (text : List Char) : List (Nat × List Char) :=
  scanPos wikiMatchAt text.length 0 text

/-- `extract_links(text)`: every markdown link (stripped target, kind
`md`), then every wiki link (kind `wiki`). -/
def extractLinks (text : List Char) : List (LinkKind × List Char) :=
  (mdLinksPos text).map (fun p => (LinkKind.md, pyTrim p.2)) ++
  (wikiLinksPos text).map (fun p => (LinkKind.wiki, pyTrim p.2))

/-! ### Retriever (kb/search.py)

Scores are modelled as `ℚ` (exact arithmetic standing in for the float
arithmetic of the source on the same literals); the square root used for
L2 norms is irrational in general, so the model abstracts it as an
explicit function parameter `sqrtFn`, exactly as the hash functions are
abstracted. -/

/-- `_fts_sim(bm25_score)`: clamp negative raw scores to `0`, then map to
`1 / (1 + s)`. -/
def ftsSim (s : ℚ) : ℚ :=
  let s0 := if s < 0 then 0 else s
  1 / (1 + s0)

/-- `{h.chunk_id: _fts_sim(h.score) for h in fts_hits}`. -/
def ftsScoresOf (hits : List (String × ℚ)) : List (String × ℚ) :=
  hits.foldl (fun m h => aset m h.1 (ftsSim h.2)) []

/-- Sum of squares of a vector; `_l2_norm_list(a)` is its square root. -/
def l2NormSq (v : List ℚ) : ℚ :=
  (v.map (fun x => x * x)).sum

/-- `_dot_list_array(a, b)`: dot product over the common prefix. -/
def dotQ (a b : List ℚ) : ℚ :=
  ((a.zip b).map (fun p => p.1 * p.2)).sum

/-- One stored embedding row as yielded by `iter_embeddings`. -/
structure EmbRow where
  chunkId : String
  dim : Int
  vec : List ℚ
  norm : ℚ
deriving DecidableEq, Repr

/-- The lexicographic order Python uses on the `(score, chunk_id)` tuples
in the candidate min-heap. -/
def tupLe (a b : ℚ × String) : Bool :=
  a.1 < b.1 || (a.1 = b.1 && a.2 ≤ b.2)

/-- The accumulation step of `_semantic_scores`' candidate loop.  The heap
is modelled by its contents kept sorted ascending (`heap[0]` is the
minimum); `heappush` is ordered insertion and `heapreplace` drops the
minimum and inserts.  A row with `dim ≤ 0` or `norm ≤ 0` is skipped. -/
def heapStep (qv : List ℚ) (qNorm : ℚ) (topK : Nat) (heap : List (ℚ × String))
    (row : EmbRow) : List (ℚ × String) :=
  if row.dim ≤ 0 ∨ row.norm ≤ 0 then heap
  else
    let score := dotQ qv row.vec / (qNorm * row.norm)
    if heap.length < topK then heap.orderedInsert (fun a b => tupLe a b) (score, row.chunkId)
    else
      match heap.head? with
      | some m =>
        if m.1 < score then
          (heap.tail.orderedInsert (fun a b => tupLe a b) (score, row.chunkId))
        else heap
      | none => heap

/-- `_semantic_scores(conn, oa_cfg, query, top_k)` given the query's
embedding `qv` and the stored rows: guard on a non-positive query norm,
scan all rows through the bounded min-heap, then return the candidates in
descending order with negative cosines clamped to `0`, as an
insertion-ordered dictionary. -/
def semanticScores (sqrtFn : ℚ → ℚ) (qv : List ℚ) (rows : List EmbRow)
    (topK : Nat) : List (String × ℚ) :=
  let qNorm := sqrtFn (l2NormSq qv)
  if qNorm ≤ 0 then []
  else
    let heap := rows.foldl (heapStep qv qNorm topK) []
    let best := (heap.mergeSort (fun a b => tupLe a b)).reverse
    best.foldl (fun m t => aset m t.2 (max 0 t.1)) []

/-- The first loop of the `hybrid and vec_scores` branch of `search_kb`:
`merged[cid] = (alpha * s, "fts")` with `alpha = 0.6`. -/
def hybridFtsStep (m : List (String × ℚ × String)) (p : String × ℚ) :
    List (String × ℚ × String) :=
  aset m p.1 (3 / 5 * p.2, "fts")

/-- The second loop of the `hybrid and vec_scores` branch: a chunk not yet
in `merged` gets `(beta * s, "vec")` with `beta = 0.4`, a chunk already
scored lexically gets the summed contributions and label `"hybrid"`. -/
def hybridVecStep (m : List (String × ℚ × String)) (p : String × ℚ) :
    List (String × ℚ × String) :=
  match alookup m p.1 with
  | none => aset m p.1 (2 / 5 * p.2, "vec")
  | some prev => aset m p.1 (prev.1 + 2 / 5 * p.2, "hybrid")

/-- The score-map merge of `search_kb` (lines 68–79) for the case
`hybrid and vec_scores`. -/
def mergeHybrid (ftsScores vecScores : List (String × ℚ)) :
    List (String × ℚ × String) :=
  vecScores.foldl hybridVecStep (ftsScores.foldl hybridFtsStep [])

/-- The merged score map of `search_kb` (lines 68–83) in all three modes. -/
def mergedScores (ftsScores vecScores : List (String × ℚ)) (semantic hybrid : Bool) :
    List (String × ℚ × String) :=
  if hybrid = true ∧ vecScores ≠ [] then mergeHybrid ftsScores vecScores
  else if semantic = true ∧ vecScores ≠ [] then vecScores.map (fun p => (p.1, p.2, "vec"))
  else ftsScores.map (fun p => (p.1, p.2, "fts"))

/-- `sorted(merged.items(), key=lambda x: x[1][0], reverse=True)[:top_k]`:
stable descending sort on the fused score, truncated to `topK`. -/
def rankTopK (merged : List (String × ℚ × String)) (topK : Nat) :
    List (String × ℚ × String) :=
  (merged.mergeSort (fun a b => decide (b.2.1 ≤ a.2.1))).take topK

/-- The ranked core of `search_kb` given the lexical hits, the query
embedding and the stored embedding rows (result hydration via
`fetch_chunk_records` preserves this order and attaches the text). -/
def searchRanked (sqrtFn : ℚ → ℚ) (ftsHits : List (String × ℚ)) (qv : List ℚ)
    (rows : List EmbRow) (semantic hybrid : Bool) (topK vecK : Nat) :
    List (String × ℚ × String) :=
  let ftsScores := ftsScoresOf ftsHits
  let vecScores := if semantic || hybrid then semanticScores sqrtFn qv rows vecK else []
  rankTopK (mergedScores ftsScores vecScores semantic hybrid) topK

/-! ### Store (kb/store_sqlite.py)

Rows mirror the schema columns the modelled operations read or write;
the `AUTOINCREMENT` surrogate id of `links` and `audit_log` carries no
information and is omitted. -/

/-- A row of `docs`. -/
structure DocRow where
  docId : String
  relPath : String
  absPath : String
  title : List Char
  summary : List Char
  tagsJson : String
  keywordsJson : String
  mtimeNs : Int
  size : Int
  contentHash : String
  updatedAt : String
deriving DecidableEq, Repr

/-- A chunk dictionary as passed to `upsert_doc_and_chunks`. -/
structure ChunkDict where
  chunkId : String
  chunkIndex : Nat
  headingPath : List Char
  startLine : Nat
  endLine : Nat
  text : List Char
  textHash : String
deriving DecidableEq, Repr

/-- A row of `chunks`. -/
structure ChunkRow where
  chunkId : String
  docId : String
  chunkIndex : Nat
  headingPath : List Char
  startLine : Nat
  endLine : Nat
  text : List Char
  textHash : String
deriving DecidableEq, Repr

/-- A row of the `chunk_fts` full-text shadow table. -/
structure FtsRow where
  chunkId : String
  text : List Char
  title : List Char
  relPath : String
  headingPath : List Char
deriving DecidableEq, Repr

/-- A row of `embeddings`. -/
structure EmbTableRow where
  chunkId : String
  model : String
  dim : Nat
  vec : List ℚ
  norm : ℚ
  createdAt : String
deriving DecidableEq, Repr

/-- A row of `links` (without the surrogate id). -/
structure LinkRow where
  sourceRelPath : String
  target : List Char
  kind : String
  anchor : Option String
deriving DecidableEq, Repr

/-- A row of `dirs`. -/
structure DirRow where
  dirRelPath : String
  metaJson : String
  metaHash : String
  updatedAt : String
deriving DecidableEq, Repr

/-- A row of `audit_log` (without the surrogate id). -/
structure AuditRow where
  ts : String
  action : String
  detailsJson : Option String
deriving DecidableEq, Repr

/-- The persistent store: one list per table. -/
structure Store where
  docs : List DocRow
  chunks : List ChunkRow
  chunkFts : List FtsRow
  embeddings : List EmbTableRow
  links : List LinkRow
  dirs : List DirRow
  auditLog : List AuditRow
deriving DecidableEq, Repr

/-- `delete_doc(conn, doc_id)`: look up the doc's `rel_path`; when absent,
return with no change.  Otherwise delete the embeddings of the doc's
chunk ids, the full-text rows of its `rel_path`, and the doc row — whose
deletion cascades to `chunks` via the `ON DELETE CASCADE` foreign key. -/
def deleteDoc (st : Store) (docId : String) : Store :=
  match st.docs.find? (fun r => r.docId = docId) with
  | none => st
  | some row =>
    let chunkIds := (st.chunks.filter (fun c => c.docId = docId)).map (fun c => c.chunkId)
    { st with
      embeddings := st.embeddings.filter (fun e => e.chunkId ∉ chunkIds)
      chunkFts := st.chunkFts.filter (fun f => f.relPath ≠ row.relPath)
      docs := st.docs.filter (fun r => r.docId ≠ docId)
      chunks := st.chunks.filter (fun c => c.docId ≠ docId) }

/-- `INSERT ... ON CONFLICT(doc_id) DO UPDATE`: replace the row with the
same `doc_id` in place, else append. -/
def upsertDocRow : List DocRow → DocRow → List DocRow
  | [], d => [d]
  | r :: rest, d => if r.docId = d.docId then d :: rest else r :: upsertDocRow rest d

/-- The `chunk_fts` row inserted for one chunk: text, title and heading
path pass through `_fts_text` (CJK spacing); `rel_path` does not. -/
def ftsRowFor (title : List Char) (relPath : String) (ch : ChunkDict) : FtsRow :=
  ⟨ch.chunkId, ftsText ch.text, ftsText title, relPath, ftsText ch.headingPath⟩

/-- The `chunks` row inserted for one chunk dictionary. -/
def chunkRowOfDict (docId : String) (ch : ChunkDict) : ChunkRow :=
  ⟨ch.chunkId, docId, ch.chunkIndex, ch.headingPath, ch.startLine, ch.endLine,
    ch.text, ch.textHash⟩

/-- The `links` row inserted for one extracted link: the source column is
the document's `rel_path`; links with an empty target are skipped
(`if lk.get("target")`). -/
def linkRowsFor (relPath : String) (links : List LinkRow) : List LinkRow :=
  (links.filter (fun l => l.target ≠ [])).map
    (fun l => { l with sourceRelPath := relPath })

/-- `upsert_doc_and_chunks(...)`: upsert the doc row; delete the
embeddings of the doc's prior chunk ids, its prior chunks, its full-text
rows (by `rel_path`) and its links; insert the new chunk rows, full-text
rows and link rows. -/
def upsertDocAndChunks (st : Store) (doc : DocRow) (chunks : List ChunkDict)
    (links : List LinkRow) : Store :=
  let oldChunkIds := (st.chunks.filter (fun c => c.docId = doc.docId)).map (fun c => c.chunkId)
  { st with
    docs := upsertDocRow st.docs doc
    embeddings := st.embeddings.filter (fun e => e.chunkId ∉ oldChunkIds)
    chunks := st.chunks.filter (fun c => c.docId ≠ doc.docId) ++
      chunks.map (chunkRowOfDict doc.docId)
    chunkFts := st.chunkFts.filter (fun f => f.relPath ≠ doc.relPath) ++
      chunks.map (ftsRowFor doc.title doc.relPath)
    links := st.links.filter (fun l => l.sourceRelPath ≠ doc.relPath) ++
      linkRowsFor doc.relPath links }

/-- The doc row visible for a `doc_id` (`find?` models the SQL lookup by
primary key). -/
def docRowIn (st : Store) (docId : String) : Option DocRow :=
  st.docs.find? (fun r => r.docId = docId)

/-- The chunk rows of one document. -/
def chunksIn (st : Store) (docId : String) : List ChunkRow :=
  st.chunks.filter (fun c => c.docId = docId)

/-- The full-text rows of one `rel_path`. -/
def ftsIn (st : Store) (relPath : String) : List FtsRow :=
  st.chunkFts.filter (fun f => f.relPath = relPath)

/-- The link rows of one source `rel_path`. -/
def linksIn (st : Store) (relPath : String) : List LinkRow :=
  st.links.filter (fun l => l.sourceRelPath = relPath)

/-- The embedding rows of one chunk id. -/
def embIn (st : Store) (chunkId : String) : List EmbTableRow :=
  st.embeddings.filter (fun e => e.chunkId = chunkId)

/-- The store invariant that makes embedding rows at a given chunk id
deletable by the owning document's upsert: every embedding row carrying
`cid` is attached to a chunk row with that id belonging to document
`docId`.  Every store the indexer produces satisfies it for
`cid = sha256(relPath + "#" + ordinal)` and `docId = sha256(relPath)`:
embeddings are only ever written for existing chunks, and a chunk with
that id always belongs to that document (both `delete_doc` and
`upsert_doc_and_chunks` delete a doc's embeddings together with its
chunks).  The empty store satisfies it vacuously. -/
def embScoped (st : Store) (docId cid : String) : Prop :=
  ∀ e ∈ st.embeddings, e.chunkId = cid →
    ∃ c ∈ st.chunks, c.chunkId = cid ∧ c.docId = docId

/-- `INSERT ... ON CONFLICT(chunk_id) DO UPDATE` for one embedding row. -/
def upsertEmbRow : List EmbTableRow → EmbTableRow → List EmbTableRow
  | [], e => [e]
  | r :: rest, e => if r.chunkId = e.chunkId then e :: rest else r :: upsertEmbRow rest e

/-- `upsert_embeddings(conn, model, embeddings)`: store each vector with
its dimension and L2 norm (`sqrtFn` of the sum of squares). -/
def upsertEmbeddings (sqrtFn : ℚ → ℚ) (st : Store) (model createdAt : String)
    (embs : List (String × List ℚ)) : Store :=
  { st with
    embeddings := embs.foldl
      (fun t e => upsertEmbRow t ⟨e.1, model, e.2.length, e.2, sqrtFn (l2NormSq e.2), createdAt⟩)
      st.embeddings }

/-! ### Indexer (kb/indexer.py)

Two views are modelled.  `indexDiff` is the content diff of `index_kb`
(lines 59–104): the store's `(relPath, contentHash, size, mtimeNs)`
snapshot against the scanned files.  `processChangedDocs` is the
per-changed-document loop (lines 111–180) over the full `Store`. -/

/-- The identity triple `(contentHash, size, mtimeNs)` of one file. -/
structure FileSig where
  contentHash : String
  size : Nat
  mtimeNs : Nat
deriving DecidableEq, Repr

/-- The counters reported by `index_kb`. -/
structure IndexCounts where
  deletedDocs : Nat
  updatedDocs : Nat
  unchangedDocs : Nat
deriving DecidableEq, Repr

/-- The unchanged test of `index_kb` line 90: a previous record exists and
content hash, size and modification time all agree. -/
def sigUnchanged (store : List (String × FileSig)) (f : String × FileSig) : Bool :=
  match alookup store f.1 with
  | some prev =>
    decide (prev.contentHash = f.2.contentHash ∧ prev.size = f.2.size ∧
      prev.mtimeNs = f.2.mtimeNs)
  | none => false

/-- One indexing run over the diff state: `store` is the persisted
`(relPath ↦ signature)` map, `files` the scanned tree.  Absent paths are
deleted, files failing `sigUnchanged` are re-indexed (their new signature
upserted), unchanged files are skipped.  Returns the run's counters and
the resulting persisted map. -/
def indexDiff (store : List (String × FileSig)) (files : List (String × FileSig)) :
    IndexCounts × List (String × FileSig) :=
  let curSet := files.map Prod.fst
  let deleted := (store.filter (fun kv => kv.1 ∉ curSet)).map Prod.fst
  let changed := files.filter (fun f => ! sigUnchanged store f)
  let unchangedN := files.countP (fun f => sigUnchanged store f)
  let store1 := store.filter (fun kv => kv.1 ∈ curSet)
  let store2 := changed.foldl (fun s f => aset s f.1 f.2) store1
  (⟨deleted.length, changed.length, unchangedN⟩, store2)

/-- Everything the per-document loop writes for one changed document. -/
structure DocSpec where
  doc : DocRow
  chunks : List ChunkDict
  links : List LinkRow
deriving Repr

/-- The per-changed-document body (index_kb lines 150–179): the
transactional structural upsert commits first; then, when embedding is
enabled and the document has chunks, the embedding capability is called
for the document's texts.  On success the embedding rows are committed;
on a capability error the embedding transaction is rolled back and the
loop continues — the structural rows stay committed either way. -/
def processDoc (sqrtFn : ℚ → ℚ) (embedFn : List (List Char) → Except String (List (List ℚ)))
    (canEmbed : Bool) (model : String) (st : Store) (d : DocSpec) : Store :=
  let st1 := upsertDocAndChunks st d.doc d.chunks d.links
  if canEmbed = true ∧ d.chunks ≠ [] then
    match embedFn (d.chunks.map (fun c => c.text)) with
    | Except.ok vecs =>
      upsertEmbeddings sqrtFn st1 model "" ((d.chunks.map (fun c => c.chunkId)).zip vecs)
    | Except.error _ => st1
  else st1

/-- The loop over all changed documents. -/
def processChangedDocs (sqrtFn : ℚ → ℚ)
    (embedFn : List (List Char) → Except String (List (List ℚ)))
    (canEmbed : Bool) (model : String) (st : Store) (docs : List DocSpec) : Store :=
  docs.foldl (processDoc sqrtFn embedFn canEmbed model) st

/-! ## Helper lemmas -/

theorem pyTrim_length_le (l : List Char) : (pyTrim l).length ≤ l.length := by
  unfold pyTrim
  have h1 : (l.dropWhile pyIsSpace).length ≤ l.length :=
    (List.dropWhile_sublist pyIsSpace).length_le
  have h2 : ((l.dropWhile pyIsSpace).reverse.dropWhile pyIsSpace).length ≤
      (l.dropWhile pyIsSpace).reverse.length :=
    (List.dropWhile_sublist pyIsSpace).length_le
  simp only [List.length_reverse] at *
  omega

theorem alookup_aset_self [DecidableEq α] (m : List (α × β)) (k : α) (v : β) :
    alookup (aset m k v) k = some v := by
  induction m with
  | nil => simp [aset, alookup]
  | cons p rest ih =>
    obtain ⟨k0, v0⟩ := p
    by_cases h : k = k0
    · simp [aset, h, alookup]
    · simp [aset, h, alookup, ih]

theorem alookup_aset_ne [DecidableEq α] (m : List (α × β)) (k k' : α) (v : β)
    (h : k' ≠ k) : alookup (aset m k v) k' = alookup m k' := by
  induction m with
  | nil => simp [aset, alookup, h]
  | cons p rest ih =>
    obtain ⟨k0, v0⟩ := p
    by_cases hk : k = k0
    · subst hk
      simp [aset, alookup, h]
    · by_cases hk' : k' = k0
      · simp [aset, alookup, hk, hk']
      · simp [aset, alookup, hk, hk', ih]

theorem mem_aset [DecidableEq α] (m : List (α × β)) (k : α) (v : β) (kv : α × β)
    (h : kv ∈ aset m k v) : kv ∈ m ∨ kv = (k, v) := by
  induction m with
  | nil => simpa [aset] using h
  | cons p rest ih =>
    obtain ⟨k0, v0⟩ := p
    by_cases hk : k = k0
    · simp only [aset, if_pos hk, List.mem_cons] at h
      rcases h with h | h
      · exact Or.inr h
      · exact Or.inl (List.mem_cons_of_mem _ h)
    · simp only [aset, if_neg hk, List.mem_cons] at h
      rcases h with h | h
      · exact Or.inl (by simp [h])
      · rcases ih h with h2 | h2
        · exact Or.inl (List.mem_cons_of_mem _ h2)
        · exact Or.inr h2

theorem alookup_filter_key [DecidableEq α] (m : List (α × β)) (p : α → Bool) (k : α)
    (h : p k = true) :
    alookup (m.filter (fun kv => p kv.1)) k = alookup m k := by
  induction m with
  | nil => simp
  | cons q rest ih =>
    obtain ⟨k0, v0⟩ := q
    by_cases hk : k = k0
    · subst hk
      simp [List.filter_cons, h, alookup]
    · by_cases hp : p k0
      · simp [List.filter_cons, hp, alookup, hk, ih]
      · simp [List.filter_cons, hp, alookup, hk, ih]

theorem alookup_foldl_aset_of_notmem [DecidableEq α] (l : List (α × β))
    (m : List (α × β)) (k : α) (h : k ∉ l.map Prod.fst) :
    alookup (l.foldl (fun s f => aset s f.1 f.2) m) k = alookup m k := by
  induction l generalizing m with
  | nil => rfl
  | cons p rest ih =>
    simp only [List.map_cons, List.mem_cons, not_or] at h
    simp only [List.foldl_cons]
    rw [ih _ h.2, alookup_aset_ne _ _ _ _ h.1]

theorem alookup_foldl_aset_of_mem [DecidableEq α] (l : List (α × β))
    (m : List (α × β)) (f : α × β) (hn : (l.map Prod.fst).Nodup) (hf : f ∈ l) :
    alookup (l.foldl (fun s g => aset s g.1 g.2) m) f.1 = some f.2 := by
  induction l generalizing m with
  | nil => cases hf
  | cons p rest ih =>
    simp only [List.map_cons, List.nodup_cons] at hn
    rcases List.mem_cons.mp hf with h | h
    · subst h
      simp only [List.foldl_cons]
      rw [alookup_foldl_aset_of_notmem _ _ _ hn.1, alookup_aset_self]
    · simp only [List.foldl_cons]
      exact ih _ hn.2 h

theorem mem_fst_foldl_aset [DecidableEq α] (l : List (α × β)) (m : List (α × β))
    (kv : α × β) (h : kv ∈ l.foldl (fun s g => aset s g.1 g.2) m) :
    kv.1 ∈ m.map Prod.fst ∨ kv.1 ∈ l.map Prod.fst := by
  induction l generalizing m with
  | nil => exact Or.inl (List.mem_map_of_mem Prod.fst h)
  | cons p rest ih =>
    simp only [List.foldl_cons] at h
    rcases ih _ h with h2 | h2
    · rcases List.mem_map.mp h2 with ⟨q, hq, hqe⟩
      rcases mem_aset _ _ _ _ hq with h3 | h3
      · exact Or.inl (hqe ▸ List.mem_map_of_mem Prod.fst h3)
      · subst h3
        exact Or.inr (by simp [← hqe])
    · exact Or.inr (List.mem_cons_of_mem _ h2)

theorem nodup_keys_inj [DecidableEq α] (l : List (α × β))
    (hn : (l.map Prod.fst).Nodup) (f g : α × β) (hf : f ∈ l) (hg : g ∈ l)
    (he : f.1 = g.1) : f = g := by
  induction l with
  | nil => cases hf
  | cons p rest ih =>
    simp only [List.map_cons, List.nodup_cons] at hn
    rcases List.mem_cons.mp hf with h1 | h1 <;> rcases List.mem_cons.mp hg with h2 | h2
    · rw [h1, h2]
    · exact absurd (he ▸ List.mem_map_of_mem Prod.fst h2) (h1 ▸ hn.1)
    · exact absurd (he ▸ List.mem_map_of_mem Prod.fst h1) (h2 ▸ hn.1)
    · exact ih hn.2 h1 h2

/-- The persisted `(relPath ↦ signature)` map after one `indexDiff` run
records exactly the scanned signature of every scanned file. -/
theorem indexDiff_lookup (store files : List (String × FileSig))
    (hn : (files.map Prod.fst).Nodup) (f : String × FileSig) (hf : f ∈ files) :
    alookup (indexDiff store files).2 f.1 = some f.2 := by
  unfold indexDiff
  simp only
  by_cases hs : sigUnchanged store f = true
  · have hnotch : f.1 ∉ (files.filter (fun g => ! sigUnchanged store g)).map Prod.fst := by
      intro hmem
      rcases List.mem_map.mp hmem with ⟨g, hg, hge⟩
      have hgf : g ∈ files := List.mem_of_mem_filter hg
      have : g = f := nodup_keys_inj files hn g f hgf hf hge
      subst this
      have := List.of_mem_filter hg
      simp [hs] at this
    rw [alookup_foldl_aset_of_notmem _ _ _ hnotch]
    have hcur : decide (f.1 ∈ files.map Prod.fst) = true :=
      decide_eq_true (List.mem_map_of_mem Prod.fst hf)
    have hfilt := alookup_filter_key store
      (fun x => decide (x ∈ files.map Prod.fst)) f.1 hcur
    rw [hfilt]
    unfold sigUnchanged at hs
    rcases hl : alookup store f.1 with _ | prev
    · rw [hl] at hs
      simp at hs
    · rw [hl] at hs
      simp only [decide_eq_true_eq] at hs
      obtain ⟨h1, h2, h3⟩ := hs
      obtain ⟨a, b, c⟩ := prev
      obtain ⟨fk, fa, fb, fc⟩ := f
      simp_all
  · have hch : f ∈ files.filter (fun g => ! sigUnchanged store g) := by
      refine List.mem_filter.mpr ⟨hf, ?_⟩
      simp [hs]
    have hchn : ((files.filter (fun g => ! sigUnchanged store g)).map Prod.fst).Nodup :=
      (hn.sublist (List.Sublist.map Prod.fst (List.filter_sublist files)))
    exact alookup_foldl_aset_of_mem _ _ _ hchn hch

/-- Every key in the post-run map is a scanned path. -/
theorem indexDiff_keys (store files : List (String × FileSig))
    (kv : String × FileSig) (h : kv ∈ (indexDiff store files).2) :
    kv.1 ∈ files.map Prod.fst := by
  unfold indexDiff at h
  simp only at h
  rcases mem_fst_foldl_aset _ _ _ h with h2 | h2
  · rcases List.mem_map.mp h2 with ⟨q, hq, hqe⟩
    have := List.of_mem_filter hq
    simp only [decide_eq_true_eq] at this
    exact hqe ▸ this
  · rcases List.mem_map.mp h2 with ⟨q, hq, hqe⟩
    exact hqe ▸ List.mem_map_of_mem Prod.fst (List.mem_of_mem_filter hq)

/-! ## C2: incremental-index idempotence -/

/-- C2: indexing the same unmodified tree twice yields, on the second run,
`updatedDocs = 0`, `deletedDocs = 0` and `unchangedDocs` equal to the
number of documents; and a previously indexed file is classified
unchanged exactly when its content hash, size and modification time all
equal the stored values (any mismatch, or no stored record, classifies it
changed). -/
theorem index_twice_idempotent (store files : List (String × FileSig))
    (hn : (files.map Prod.fst).Nodup) :
    ((indexDiff (indexDiff store files).2 files).1.updatedDocs = 0 ∧
      (indexDiff (indexDiff store files).2 files).1.deletedDocs = 0 ∧
      (indexDiff (indexDiff store files).2 files).1.unchangedDocs = files.length) ∧
    (∀ f ∈ files, ∀ prev, alookup store f.1 = some prev →
      (sigUnchanged store f = true ↔
        (prev.contentHash = f.2.contentHash ∧ prev.size = f.2.size ∧
          prev.mtimeNs = f.2.mtimeNs))) ∧
    (∀ f ∈ files, alookup store f.1 = none → sigUnchanged store f = false) := by
  refine ⟨?_, ?_, ?_⟩
  · have hall : ∀ f ∈ files, sigUnchanged (indexDiff store files).2 f = true := by
      intro f hf
      unfold sigUnchanged
      rw [indexDiff_lookup store files hn f hf]
      simp
    refine ⟨?_, ?_, ?_⟩
    · show (files.filter (fun f => ! sigUnchanged (indexDiff store files).2 f)).length = 0
      rw [List.filter_eq_nil_iff.mpr (by intro a ha; simp [hall a ha])]
      rfl
    · show (((indexDiff store files).2.filter
        (fun kv => kv.1 ∉ files.map Prod.fst)).map Prod.fst).length = 0
      rw [List.filter_eq_nil_iff.mpr ?_]
      · rfl
      · intro kv hkv
        simp only [decide_not, Bool.not_eq_true', decide_eq_false_iff_not, not_not]
        exact indexDiff_keys store files kv hkv
    · show files.countP (fun f => sigUnchanged (indexDiff store files).2 f) = files.length
      exact List.countP_eq_length.mpr (by intro a ha; simpa using hall a ha)
  · intro f hf prev hprev
    unfold sigUnchanged
    rw [hprev]
    simp
  · intro f hf hnone
    unfold sigUnchanged
    rw [hnone]

/-- Witness for C2: a one-file tree, in a store that already holds a stale
record for it. -/
theorem index_twice_idempotent_witness :
    ((indexDiff (indexDiff [("a.md", ⟨"h0", 1, 1⟩)] [("a.md", ⟨"h1", 3, 5⟩)]).2
        [("a.md", ⟨"h1", 3, 5⟩)]).1.updatedDocs = 0 ∧
      (indexDiff (indexDiff [("a.md", ⟨"h0", 1, 1⟩)] [("a.md", ⟨"h1", 3, 5⟩)]).2
        [("a.md", ⟨"h1", 3, 5⟩)]).1.deletedDocs = 0 ∧
      (indexDiff (indexDiff [("a.md", ⟨"h0", 1, 1⟩)] [("a.md", ⟨"h1", 3, 5⟩)]).2
        [("a.md", ⟨"h1", 3, 5⟩)]).1.unchangedDocs = 1) ∧
    sigUnchanged [("a.md", ⟨"h0", 1, 1⟩)] ("a.md", ⟨"h1", 3, 5⟩) = false := by
  have h := index_twice_idempotent [("a.md", ⟨"h0", 1, 1⟩)] [("a.md", ⟨"h1", 3, 5⟩)]
    (by decide)
  refine ⟨⟨h.1.1, h.1.2.1, h.1.2.2⟩, ?_⟩
  have h2 := (h.2.1 ("a.md", ⟨"h1", 3, 5⟩) (by simp) ⟨"h0", 1, 1⟩ (by rfl))
  by_cases hb : sigUnchanged [("a.md", ⟨"h0", 1, 1⟩)] ("a.md", ⟨"h1", 3, 5⟩) = true
  · have := h2.mp hb
    simp at this
  · simpa using hb

theorem alookup_eq_none_iff [DecidableEq α] (l : List (α × β)) (k : α) :
    alookup l k = none ↔ k ∉ l.map Prod.fst := by
  induction l with
  | nil => simp [alookup]
  | cons p rest ih =>
    obtain ⟨k0, v0⟩ := p
    by_cases h : k = k0 <;> simp [alookup, h, ih]

theorem alookup_foldl_asetg_of_notmem [DecidableEq α] (l : List (α × β))
    (g : α × β → γ) (m : List (α × γ)) (k : α) (h : k ∉ l.map Prod.fst) :
    alookup (l.foldl (fun s p => aset s p.1 (g p)) m) k = alookup m k := by
  induction l generalizing m with
  | nil => rfl
  | cons p rest ih =>
    simp only [List.map_cons, List.mem_cons, not_or] at h
    simp only [List.foldl_cons]
    rw [ih _ h.2, alookup_aset_ne _ _ _ _ h.1]

theorem alookup_foldl_asetg_of_mem [DecidableEq α] (l : List (α × β))
    (g : α × β → γ) (m : List (α × γ)) (f : α × β)
    (hn : (l.map Prod.fst).Nodup) (hf : f ∈ l) :
    alookup (l.foldl (fun s p => aset s p.1 (g p)) m) f.1 = some (g f) := by
  induction l generalizing m with
  | nil => cases hf
  | cons p rest ih =>
    simp only [List.map_cons, List.nodup_cons] at hn
    rcases List.mem_cons.mp hf with h | h
    · subst h
      simp only [List.foldl_cons]
      rw [alookup_foldl_asetg_of_notmem _ _ _ _ hn.1, alookup_aset_self]
    · simp only [List.foldl_cons]
      exact ih _ hn.2 h

/-- `hybridVecStep` leaves every other key's entry unchanged. -/
theorem hybridVecStep_lookup_ne (m : List (String × ℚ × String))
    (p : String × ℚ) (c : String) (h : c ≠ p.1) :
    alookup (hybridVecStep m p) c = alookup m c := by
  unfold hybridVecStep
  cases alookup m p.1 <;> exact alookup_aset_ne _ _ _ _ h

/-- Folding `hybridVecStep` over entries whose keys all differ from `c`
leaves the entry at `c` unchanged. -/
theorem foldl_hybridVecStep_notmem (l : List (String × ℚ))
    (m : List (String × ℚ × String)) (c : String) (hc : c ∉ l.map Prod.fst) :
    alookup (l.foldl hybridVecStep m) c = alookup m c := by
  induction l generalizing m with
  | nil => rfl
  | cons p rest ih =>
    simp only [List.map_cons, List.mem_cons, not_or] at hc
    simp only [List.foldl_cons]
    rw [ih _ hc.2, hybridVecStep_lookup_ne m p c hc.1]

/-- The second fold of `mergeHybrid`, looked up at a vector-scored chunk:
the result depends on whether the chunk already had a lexical entry. -/
theorem foldl_hybridVecStep_lookup (vec : List (String × ℚ))
    (m : List (String × ℚ × String)) (c : String) (sv : ℚ)
    (hv : (vec.map Prod.fst).Nodup) (hl : alookup vec c = some sv) :
    alookup (vec.foldl hybridVecStep m) c =
      (match alookup m c with
        | none => some (2 / 5 * sv, "vec")
        | some prev => some (prev.1 + 2 / 5 * sv, "hybrid")) := by
  induction vec generalizing m with
  | nil => cases hl
  | cons p rest ih =>
    obtain ⟨k0, s0⟩ := p
    simp only [List.map_cons, List.nodup_cons] at hv
    by_cases hk : c = k0
    · subst hk
      simp only [alookup, if_pos rfl] at hl
      cases hl
      simp only [List.foldl_cons]
      rw [foldl_hybridVecStep_notmem rest _ c hv.1]
      unfold hybridVecStep
      cases hm : alookup m c <;>
        simp only [hm, alookup_aset_self]
    · simp only [alookup, if_neg hk] at hl
      simp only [List.foldl_cons]
      rw [ih _ hv.2 hl, hybridVecStep_lookup_ne m (k0, s0) c hk]

/-! ## C1: hybrid search fusion -/

/-- C1: with both score maps computed and the vector map non-empty, a
chunk in both maps fuses to `0.6*s_f + 0.4*s_v` labelled `"hybrid"`, a
lexical-only chunk keeps `0.6*s_f` labelled `"fts"`, a vector-only chunk
keeps `0.4*s_v` labelled `"vec"`; the hybrid branch is taken, and the
final result is the descending sort of the fused map truncated to
`topK`. -/
theorem hybrid_fusion (fts vec : List (String × ℚ)) (semantic : Bool) (topK : Nat)
    (hf : (fts.map Prod.fst).Nodup) (hv : (vec.map Prod.fst).Nodup)
    (hne : vec ≠ []) :
    (∀ c sf sv, alookup fts c = some sf → alookup vec c = some sv →
      alookup (mergeHybrid fts vec) c = some (3 / 5 * sf + 2 / 5 * sv, "hybrid")) ∧
    (∀ c sf, alookup fts c = some sf → alookup vec c = none →
      alookup (mergeHybrid fts vec) c = some (3 / 5 * sf, "fts")) ∧
    (∀ c sv, alookup vec c = some sv → alookup fts c = none →
      alookup (mergeHybrid fts vec) c = some (2 / 5 * sv, "vec")) ∧
    mergedScores fts vec semantic true = mergeHybrid fts vec ∧
    (rankTopK (mergeHybrid fts vec) topK).Pairwise (fun a b => b.2.1 ≤ a.2.1) ∧
    ∃ full : List (String × ℚ × String), full.Perm (mergeHybrid fts vec) ∧
      full.Pairwise (fun a b => b.2.1 ≤ a.2.1) ∧
      rankTopK (mergeHybrid fts vec) topK = full.take topK := by
  have hmemof : ∀ (l : List (String × ℚ)) (c : String) (s : ℚ),
      alookup l c = some s → (c, s) ∈ l := by
    intro l c s h
    induction l with
    | nil => cases h
    | cons p rest ih =>
      obtain ⟨k0, v0⟩ := p
      by_cases hk : c = k0
      · subst hk
        simp only [alookup, if_pos rfl] at h
        cases h
        exact List.mem_cons_self _ _
      · simp only [alookup, if_neg hk] at h
        exact List.mem_cons_of_mem _ (ih h)
  have halo : ∀ c sf, alookup fts c = some sf →
      alookup (fts.foldl hybridFtsStep []) c = some (3 / 5 * sf, "fts") := by
    intro c sf h
    exact alookup_foldl_asetg_of_mem fts (fun p => (3 / 5 * p.2, "fts")) [] (c, sf)
      hf (hmemof fts c sf h)
  have hnone : ∀ c, alookup fts c = none →
      alookup (fts.foldl hybridFtsStep []) c = none := by
    intro c h
    have := alookup_foldl_asetg_of_notmem fts (fun p => (3 / 5 * p.2, "fts")) [] c
      ((alookup_eq_none_iff fts c).mp h)
    exact this
  have hsort := @List.sorted_mergeSort (String × ℚ × String)
    (fun a b => decide (b.2.1 ≤ a.2.1))
    (fun a b c hab hbc => by
      simp only [decide_eq_true_eq] at *
      exact le_trans hbc hab)
    (fun a b => by
      simp only [Bool.or_eq_true, decide_eq_true_eq]
      exact (le_total b.2.1 a.2.1))
    (mergeHybrid fts vec)
  refine ⟨?_, ?_, ?_, ?_, ?_, ?_⟩
  · intro c sf sv h1 h2
    unfold mergeHybrid
    rw [foldl_hybridVecStep_lookup vec _ c sv hv h2, halo c sf h1]
  · intro c sf h1 h2
    unfold mergeHybrid
    rw [foldl_hybridVecStep_notmem vec _ c ((alookup_eq_none_iff vec c).mp h2)]
    exact halo c sf h1
  · intro c sv h1 h2
    unfold mergeHybrid
    rw [foldl_hybridVecStep_lookup vec _ c sv hv h1, hnone c h2]
  · simp [mergedScores, hne]
  · exact List.Pairwise.sublist (List.take_sublist _ _)
      (by simpa using hsort)
  · exact ⟨(mergeHybrid fts vec).mergeSort (fun a b => decide (b.2.1 ≤ a.2.1)),
      List.mergeSort_perm _ _, by simpa using hsort, rfl⟩

/-- Witness for C1 on concrete two-element maps. -/
theorem hybrid_fusion_witness :
    alookup (mergeHybrid [("a", 1), ("b", 1 / 2)] [("b", 1), ("c", 3 / 4)]) "b" =
      some (3 / 5 * (1 / 2) + 2 / 5 * 1, "hybrid") ∧
    alookup (mergeHybrid [("a", 1), ("b", 1 / 2)] [("b", 1), ("c", 3 / 4)]) "a" =
      some (3 / 5 * 1, "fts") ∧
    alookup (mergeHybrid [("a", 1), ("b", 1 / 2)] [("b", 1), ("c", 3 / 4)]) "c" =
      some (2 / 5 * (3 / 4), "vec") := by
  have h := hybrid_fusion [("a", 1), ("b", 1 / 2)] [("b", 1), ("c", 3 / 4)] false 10
    (by decide) (by decide) (by decide)
  exact ⟨h.1 "b" (1 / 2) 1 (by rfl) (by rfl),
    h.2.1 "a" 1 (by rfl) (by rfl),
    h.2.2.1 "c" (3 / 4) (by rfl) (by rfl)⟩

/-! ## C5: overlap splitting -/

/-- The window loop is the filterMap of the per-window emission rule over
the slid window starts — the code's loop matches the spec's sliding
window description. -/
theorem splitLoop_eq_filterMap (t : List Char) (maxC minC step : Nat) :
    ∀ fuel i, splitLoop t maxC minC step i fuel =
      (windowStarts t.length maxC step i fuel).filterMap (emitWindow t maxC minC) := by
  intro fuel
  induction fuel with
  | zero => intro i; rfl
  | succ fuel ih =>
    intro i
    unfold splitLoop windowStarts
    by_cases hi : i < t.length
    · simp only [if_pos hi]
      by_cases hl : t.length ≤ i + maxC
      · simp only [if_pos hl, List.filterMap_cons, List.filterMap_nil]
        unfold emitWindow
        simp only [hl, or_true]
        split <;> rename_i hcond
        · simp only [if_pos (by tauto)]
        · simp only [if_neg (by tauto)]
      · simp only [if_neg hl, List.filterMap_cons, ih (i + step)]
        unfold emitWindow
        simp only [hl, or_false]
        split <;> rename_i hcond
        · simp only [if_pos (by tauto)]
        · simp only [if_neg (by tauto)]
    · simp only [if_neg hi, List.filterMap_nil]

/-- C5 (amended): a text whose stripped form is non-empty and fits in
`maxChars` is returned whole as a single chunk, and an empty-after-strip
text yields no chunks; a longer text is processed by sliding a window of
width `maxChars` with step `max(1, maxChars - overlapChars)`, stripping
each window and dropping it when it strips to empty or is shorter than
`minChars` without being the final window; every emitted piece has length
at most `maxChars`; and the 100-character scenario with `maxChars = 20`,
`overlapChars = 5`, `minChars = 1` yields 7 ≥ 4 chunks of length ≤ 20. -/
theorem splitWithOverlap_spec (text : List Char) (maxC overlapC minC : Nat)
    (hmax : 1 ≤ maxC) :
    ((pyTrim text) ≠ [] → (pyTrim text).length ≤ maxC →
      splitWithOverlap text maxC overlapC minC = [pyTrim text]) ∧
    (pyTrim text = [] → splitWithOverlap text maxC overlapC minC = []) ∧
    (maxC < (pyTrim text).length →
      splitWithOverlap text maxC overlapC minC =
        (windowStarts (pyTrim text).length maxC (max 1 (maxC - overlapC)) 0
          ((pyTrim text).length + 1)).filterMap
          (emitWindow (pyTrim text) maxC minC)) ∧
    (∀ piece ∈ splitWithOverlap text maxC overlapC minC, piece.length ≤ maxC) ∧
    ((splitWithOverlap
        "0123456789012345678901234567890123456789012345678901234567890123456789012345678901234567890123456789".data
        20 5 1).length = 7 ∧
      ∀ piece ∈ splitWithOverlap
        "0123456789012345678901234567890123456789012345678901234567890123456789012345678901234567890123456789".data
        20 5 1, piece.length ≤ 20) := by
  refine ⟨?_, ?_, ?_, ?_, by decide, by decide⟩
  · intro hne hlen
    simp [splitWithOverlap, hlen, hne]
  · intro hnil
    simp [splitWithOverlap, hnil, hmax]
  · intro hlong
    unfold splitWithOverlap
    rw [if_neg (show ¬ (pyTrim text).length ≤ maxC by omega)]
    exact splitLoop_eq_filterMap (pyTrim text) maxC minC (max 1 (maxC - overlapC))
      ((pyTrim text).length + 1) 0
  · intro piece hmem
    unfold splitWithOverlap at hmem
    by_cases hlen : (pyTrim text).length ≤ maxC
    · simp only [if_pos hlen] at hmem
      by_cases hne : pyTrim text = []
      · simp [hne] at hmem
      · simp only [if_pos hne] at hmem
        rcases List.mem_singleton.mp (by simpa [hne] using hmem) with h
        subst h
        exact hlen
    · simp only [if_neg hlen] at hmem
      rw [splitLoop_eq_filterMap] at hmem
      rcases List.mem_filterMap.mp hmem with ⟨i, _, hemit⟩
      unfold emitWindow at hemit
      split at hemit
      · cases hemit
        calc (pyTrim (((pyTrim text).drop i).take maxC)).length
            ≤ (((pyTrim text).drop i).take maxC).length := pyTrim_length_le _
          _ ≤ maxC := by simp [List.length_take]
      · cases hemit

/-- Witness for C5 at concrete inputs for each hypothesis-guarded part. -/
theorem splitWithOverlap_spec_witness :
    splitWithOverlap "  hi  ".data 20 5 1 = ["hi".data] ∧
    splitWithOverlap "   ".data 20 5 1 = [] ∧
    ∀ piece ∈ splitWithOverlap "abcdef".data 2 1 1, piece.length ≤ 2 := by
  have h1 := splitWithOverlap_spec "  hi  ".data 20 5 1 (by omega)
  have h2 := splitWithOverlap_spec "   ".data 20 5 1 (by omega)
  have h3 := splitWithOverlap_spec "abcdef".data 2 1 1 (by omega)
  exact ⟨h1.1 (by decide) (by decide), h2.2.1 (by decide), h3.2.2.2.1⟩

/-- Counterexample to C5 as stated: for the empty text the trimmed text
has length `0 ≤ maxChars`, yet the function yields no chunk at all rather
than the single (empty) trimmed chunk. -/
theorem splitWithOverlap_empty_counterexample :
    (pyTrim ("".data)).length ≤ 20 ∧
    splitWithOverlap "".data 20 5 1 ≠ [pyTrim "".data] := by
  decide

/-! ## C4: CJK query normalisation -/

theorem isCjk_not_space (c : Char) (h : isCjk c = true) : pyIsSpace c = false := by
  by_contra hsp
  rw [Bool.not_eq_false] at hsp
  have hd : ((((c = ' ' ∨ c = '\t') ∨ c = '\n') ∨ c = '\r') ∨ c = '\x0b') ∨ c = '\x0c' := by
    simpa [pyIsSpace] using hsp
  rcases hd with ((((he | he) | he) | he) | he) | he <;>
    · rw [he] at h
      exact absurd h (by decide)

theorem isCjk_ne_space (c : Char) (h : isCjk c = true) : c ≠ ' ' := by
  intro he
  rw [he] at h
  exact absurd h (by decide)

theorem isCjk_ne_quote (c : Char) (h : isCjk c = true) : c ≠ '"' := by
  intro he
  rw [he] at h
  exact absurd h (by decide)

theorem dropWhile_eq_self_of_false (l : List α) (p : α → Bool)
    (h : ∀ c ∈ l, p c = false) : l.dropWhile p = l := by
  cases l with
  | nil => rfl
  | cons a t =>
    rw [List.dropWhile_cons_of_neg]
    simp [h a (List.mem_cons_self a t)]

theorem pyTrim_allCjk (q : List Char) (h : q.all isCjk) : pyTrim q = q := by
  have hns : ∀ c ∈ q, pyIsSpace c = false := by
    intro c hc
    exact isCjk_not_space c (by simpa using List.all_eq_true.mp h c hc)
  unfold pyTrim
  rw [dropWhile_eq_self_of_false q pyIsSpace hns,
    dropWhile_eq_self_of_false q.reverse pyIsSpace (by simpa using hns),
    List.reverse_reverse]

theorem hasWs_allCjk (q : List Char) (h : q.all isCjk) : hasWs q = false := by
  unfold hasWs
  rw [List.any_eq_false]
  intro c hc hws
  have hcjk : isCjk c = true := by simpa using List.all_eq_true.mp h c hc
  have hd : (c = ' ' ∨ c = '\t') ∨ c = '\n' := by simpa using hws
  rcases hd with (he | he) | he <;>
    · rw [he] at hcjk
      exact absurd hcjk (by decide)

theorem containsCjk_allCjk (q : List Char) (hq : q.all isCjk) (hne : q ≠ []) :
    containsCjk q = true := by
  cases q with
  | nil => exact absurd rfl hne
  | cons c rest =>
    simp only [containsCjk, List.any_cons, Bool.or_eq_true]
    exact Or.inl (by simpa using List.all_eq_true.mp hq c (List.mem_cons_self c rest))

theorem cjkSpace_cons_cjk (c : Char) (l : List Char) (hc : isCjk c = true) :
    cjkSpace (c :: l) = c :: ' ' :: cjkSpace l := by
  simp only [cjkSpace]
  rw [if_pos hc]

theorem intersperse_cons_of_ne (sep c : α) (l : List α) (h : l ≠ []) :
    List.intersperse sep (c :: l) = c :: sep :: List.intersperse sep l := by
  cases l with
  | nil => exact absurd rfl h
  | cons a t => simp [List.intersperse_cons₂]

theorem intersperse_ne_nil (sep : α) (l : List α) (h : l ≠ []) :
    List.intersperse sep l ≠ [] := by
  cases l with
  | nil => exact absurd rfl h
  | cons a t => cases t <;> simp

theorem cjkSpace_rev_dropWhile (q : List Char) (hq : q.all isCjk) (hne : q ≠ []) :
    (cjkSpace q).reverse.dropWhile pyIsSpace = (List.intersperse ' ' q).reverse := by
  induction q with
  | nil => exact absurd rfl hne
  | cons c rest ih =>
    have hc : isCjk c = true := by simpa using List.all_eq_true.mp hq c (List.mem_cons_self c rest)
    have hrest : rest.all isCjk := by
      simp only [List.all_eq_true] at hq ⊢
      exact fun x hx => hq x (List.mem_cons_of_mem c hx)
    have hns := isCjk_not_space c hc
    rcases eq_or_ne rest [] with hr | hr
    · subst hr
      rw [cjkSpace_cons_cjk c [] hc]
      simp [cjkSpace, List.dropWhile_cons, hns, (show pyIsSpace ' ' = true by decide)]
    · have ihr := ih hrest hr
      rw [cjkSpace_cons_cjk c rest hc,
        show (c :: ' ' :: cjkSpace rest).reverse = (cjkSpace rest).reverse ++ [' ', c] by simp,
        List.dropWhile_append, ihr, intersperse_cons_of_ne ' ' c rest hr]
      have hnonempty : ((List.intersperse ' ' rest).reverse).isEmpty = false := by
        rcases hx : List.intersperse ' ' rest with _ | ⟨a, t⟩
        · exact absurd hx (intersperse_ne_nil ' ' rest hr)
        · simp
      rw [hnonempty]
      simp

theorem pyTrim_cjkSpace (q : List Char) (hq : q.all isCjk) (hne : q ≠ []) :
    pyTrim (cjkSpace q) = List.intersperse ' ' q := by
  unfold pyTrim
  have hfront : (cjkSpace q).dropWhile pyIsSpace = cjkSpace q := by
    cases q with
    | nil => exact absurd rfl hne
    | cons c rest =>
      have hc : isCjk c = true := by
        simpa using List.all_eq_true.mp hq c (List.mem_cons_self c rest)
      simp [cjkSpace, if_pos hc, List.dropWhile_cons_of_neg, isCjk_not_space c hc]
  rw [hfront, cjkSpace_rev_dropWhile q hq hne, List.reverse_reverse]

theorem mem_intersperse (sep : α) (l : List α) (a : α)
    (h : a ∈ List.intersperse sep l) : a = sep ∨ a ∈ l := by
  induction l with
  | nil => cases h
  | cons c rest ih =>
    cases rest with
    | nil =>
      simp only [List.intersperse_single, List.mem_singleton] at h
      exact Or.inr (by simp [h])
    | cons c2 rest2 =>
      simp only [List.intersperse_cons₂, List.mem_cons] at h
      rcases h with h | h | h
      · exact Or.inr (by simp [h])
      · exact Or.inl h
      · rcases ih h with h2 | h2
        · exact Or.inl h2
        · exact Or.inr (List.mem_cons_of_mem _ h2)

theorem filter_quote_intersperse (q : List Char) (hq : q.all isCjk) :
    (List.intersperse ' ' q).filter (fun c => c ≠ '"') = List.intersperse ' ' q := by
  rw [List.filter_eq_self]
  intro a ha
  rcases mem_intersperse ' ' q a ha with h | h
  · subst h
    decide
  · simpa using isCjk_ne_quote a (by simpa using List.all_eq_true.mp hq a h)

theorem tokensAux_cons_of_ne (acc : List Char) (c : Char) (l : List Char)
    (h : ¬ c = ' ') : tokensAux acc (c :: l) = tokensAux (c :: acc) l := by
  simp only [tokensAux]
  rw [if_neg h]

theorem tokensAux_space_of_acc_ne (acc : List Char) (l : List Char)
    (h : ¬ acc = []) :
    tokensAux acc (' ' :: l) = acc.reverse :: tokensAux [] l := by
  simp only [tokensAux]
  simp [h]

theorem tokens_cjkSpace (t : List Char) (ht : t.all isCjk) :
    tokens (cjkSpace t) = t.map (fun c => [c]) := by
  show tokensAux [] (cjkSpace t) = t.map (fun c => [c])
  induction t with
  | nil => rfl
  | cons c rest ih =>
    have hc : isCjk c = true := by simpa using List.all_eq_true.mp ht c (List.mem_cons_self c rest)
    have hrest : rest.all isCjk := by
      simp only [List.all_eq_true] at ht ⊢
      exact fun x hx => ht x (List.mem_cons_of_mem c hx)
    rw [cjkSpace_cons_cjk c rest hc,
      tokensAux_cons_of_ne [] c _ (isCjk_ne_space c hc),
      tokensAux_space_of_acc_ne [c] _ (by simp),
      ih hrest]
    rfl

theorem tokens_intersperse (q : List Char) (hq : q.all isCjk) :
    tokens (List.intersperse ' ' q) = q.map (fun c => [c]) := by
  show tokensAux [] (List.intersperse ' ' q) = q.map (fun c => [c])
  induction q with
  | nil => rfl
  | cons c rest ih =>
    have hc : isCjk c = true := by simpa using List.all_eq_true.mp hq c (List.mem_cons_self c rest)
    have hrest : rest.all isCjk := by
      simp only [List.all_eq_true] at hq ⊢
      exact fun x hx => hq x (List.mem_cons_of_mem c hx)
    rcases eq_or_ne rest [] with hr | hr
    · subst hr
      rw [List.intersperse_single,
        tokensAux_cons_of_ne [] c [] (isCjk_ne_space c hc)]
      rfl
    · rw [intersperse_cons_of_ne ' ' c rest hr,
        tokensAux_cons_of_ne [] c _ (isCjk_ne_space c hc),
        tokensAux_space_of_acc_ne [c] _ (by simp),
        ih hrest]
      rfl

/-- C4 (amended): a non-empty all-CJK query (which therefore has no
whitespace) is rewritten by `_fts_query` into a double-quoted phrase with
a separator after every CJK character except the last (the trailing
separator is stripped); index-time text gets a separator after every CJK
character via `_fts_text`, applied to chunk text, title and heading path
(not `rel_path`); under the space-splitting tokenizer model the query
phrase then tokenizes to the query's characters and occurs contiguously
in the tokens of any indexed all-CJK text containing the phrase; and a
query whose stripped form still contains whitespace is passed through
stripped but otherwise unmodified. -/
theorem cjk_query_normalisation (q t : List Char) (hq : q.all isCjk)
    (hqne : q ≠ []) (ht : t.all isCjk) :
    ftsQuery q = '"' :: (List.intersperse ' ' q ++ ['"']) ∧
    tokens (List.intersperse ' ' q) = q.map (fun c => [c]) ∧
    tokens (ftsText t) = t.map (fun c => [c]) ∧
    (q <:+: t → tokens (List.intersperse ' ' q) <:+: tokens (ftsText t)) ∧
    (∀ st doc chunks links, (upsertDocAndChunks st doc chunks links).chunkFts =
      st.chunkFts.filter (fun f => f.relPath ≠ doc.relPath) ++
        chunks.map (ftsRowFor doc.title doc.relPath)) ∧
    (∀ title relPath ch, ftsRowFor title relPath ch =
      ⟨ch.chunkId, cjkSpace ch.text, cjkSpace title, relPath, cjkSpace ch.headingPath⟩) ∧
    (∀ query, hasWs (pyTrim query) = true → ftsQuery query = pyTrim query) := by
  refine ⟨?_, tokens_intersperse q hq, tokens_cjkSpace t ht, ?_, ?_, ?_, ?_⟩
  · unfold ftsQuery
    rw [pyTrim_allCjk q hq, if_neg hqne, hasWs_allCjk q hq,
      containsCjk_allCjk q hq hqne, pyTrim_cjkSpace q hq hqne,
      filter_quote_intersperse q hq]
    simp
  · intro hinf
    have hmap := List.IsInfix.map (fun c => [c]) hinf
    rw [← tokens_intersperse q hq, ← tokens_cjkSpace t ht] at hmap
    exact hmap
  · intro st doc chunks links
    rfl
  · intro title relPath ch
    rfl
  · intro query hws
    unfold ftsQuery
    have hne : pyTrim query ≠ [] := by
      intro he
      rw [he] at hws
      cases hws
    rw [if_neg hne, if_pos hws]

/-- Witness for C4 on the spec's scenario query `"离线优先"` inside the
all-CJK text `"系统离线优先设计"`. -/
theorem cjk_query_normalisation_witness :
    ftsQuery "离线优先".data =
      '"' :: (List.intersperse ' ' "离线优先".data ++ ['"']) ∧
    tokens (List.intersperse ' ' "离线优先".data) <:+:
      tokens (ftsText "系统离线优先设计".data) := by
  have h := cjk_query_normalisation "离线优先".data "系统离线优先设计".data
    (by decide) (by decide) (by decide)
  refine ⟨h.1, h.2.2.2.1 ?_⟩
  exact ⟨"系统".data, "设计".data, by decide⟩

/-- Counterexample to C4 as stated: the query `"a b "` contains
whitespace but is not passed through unmodified — `_fts_query` strips
it. -/
theorem cjk_query_passthrough_counterexample :
    hasWs "a b ".data = true ∧ ftsQuery "a b ".data ≠ "a b ".data := by
  decide

/-! ## C3: zero-norm guard -/

/-- C3 (divergence witness): in semantic-only mode with a zero query
vector (`sqrt` of a zero sum of squares is exactly `0`),
`_semantic_scores` correctly returns the empty score map without dividing
by zero — but `search_kb` then falls into its final `else` branch and
returns the lexical hits labelled `"fts"` instead of the empty result
set the spec requires: with one matching lexical hit the result is
non-empty. -/
theorem semantic_zero_norm_divergence :
    semanticScores id [0, 0] [⟨"e1", 2, [1, 0], 1⟩] 50 = [] ∧
    searchRanked id [("c1", 1)] [0, 0] [⟨"e1", 2, [1, 0], 1⟩] true false 5 50 =
      [("c1", 1 / 2, "fts")] ∧
    searchRanked id [("c1", 1)] [0, 0] [⟨"e1", 2, [1, 0], 1⟩] true false 5 50 ≠ [] := by
  have hsem : semanticScores id [0, 0] [⟨"e1", 2, [1, 0], 1⟩] 50 = [] := by
    unfold semanticScores
    rw [if_pos (by norm_num [l2NormSq])]
  have hfts : ftsScoresOf [("c1", 1)] = [("c1", 1 / 2)] := by
    have h1 : ftsSim 1 = 1 / 2 := by norm_num [ftsSim]
    simp [ftsScoresOf, aset, h1]
  have hrank : searchRanked id [("c1", 1)] [0, 0] [⟨"e1", 2, [1, 0], 1⟩] true false 5 50 =
      [("c1", 1 / 2, "fts")] := by
    have hdef : searchRanked id [("c1", 1)] [0, 0] [⟨"e1", 2, [1, 0], 1⟩] true false 5 50 =
        rankTopK (mergedScores (ftsScoresOf [("c1", 1)])
          (semanticScores id [0, 0] [⟨"e1", 2, [1, 0], 1⟩] 50) true false) 5 := by
      simp [searchRanked]
    rw [hdef, hsem, hfts]
    simp [mergedScores, rankTopK, List.mergeSort]
  refine ⟨hsem, hrank, ?_⟩
  rw [hrank]
  simp

/-! ## C10: chunk index contiguity -/

/-- The loop invariant: chunk indices written so far are exactly
`0, 1, …` and the counter equals the number of chunks written. -/
theorem flushParagraph_inv (hash : List Char → List Char) (maxC ov minC : Nat)
    (st : ChunkState) (endLine : Nat)
    (h1 : st.acc.map (fun c => c.chunkIndex) = List.range' 0 st.acc.length)
    (h2 : st.idx = st.acc.length) :
    (flushParagraph hash maxC ov minC st endLine).acc.map (fun c => c.chunkIndex) =
      List.range' 0 (flushParagraph hash maxC ov minC st endLine).acc.length ∧
    (flushParagraph hash maxC ov minC st endLine).idx =
      (flushParagraph hash maxC ov minC st endLine).acc.length := by
  unfold flushParagraph
  by_cases hraw : pyTrim (joinLines st.buf) = []
  · simp only [hraw, if_pos]
    exact ⟨h1, h2⟩
  · simp only [hraw, if_neg, reduceIte]
    constructor
    · rw [List.map_append, List.length_append, h1, List.map_map, List.length_map]
      have hmap : ((List.enumFrom st.idx
          (splitWithOverlap (if st.curPath ≠ [] then st.curPath ++ '\n' :: '\n' :: pyTrim (joinLines st.buf) else pyTrim (joinLines st.buf)) maxC ov minC)).map
          ((fun c => c.chunkIndex) ∘ fun p =>
            (⟨p.1, st.curPath, st.pStart, endLine, p.2, hash p.2⟩ : Chunk))) =
          (List.enumFrom st.idx
          (splitWithOverlap (if st.curPath ≠ [] then st.curPath ++ '\n' :: '\n' :: pyTrim (joinLines st.buf) else pyTrim (joinLines st.buf)) maxC ov minC)).map Prod.fst := by
        rfl
      rw [hmap, List.enumFrom_map_fst, h2, Nat.add_comm st.acc.length]
      simpa using List.range'_append_1 0 st.acc.length _
    · simp only [List.length_append, List.length_map, List.enumFrom_length]
      omega

theorem chunkLine_inv (hash : List Char → List Char) (maxC ov minC : Nat)
    (st : ChunkState) (p : Nat × List Char)
    (h1 : st.acc.map (fun c => c.chunkIndex) = List.range' 0 st.acc.length)
    (h2 : st.idx = st.acc.length) :
    (chunkLine hash maxC ov minC st p).acc.map (fun c => c.chunkIndex) =
      List.range' 0 (chunkLine hash maxC ov minC st p).acc.length ∧
    (chunkLine hash maxC ov minC st p).idx =
      (chunkLine hash maxC ov minC st p).acc.length := by
  rcases hp : parseHeading p.2 with _ | lt
  · simp only [chunkLine, hp]
    by_cases hb : pyTrim p.2 = []
    · rw [if_pos hb]
      exact flushParagraph_inv hash maxC ov minC st (p.1 + 1) h1 h2
    · rw [if_neg hb]
      exact ⟨h1, h2⟩
  · simp only [chunkLine, hp]
    exact flushParagraph_inv hash maxC ov minC st p.1 h1 h2

theorem chunkFold_inv (hash : List Char → List Char) (maxC ov minC : Nat)
    (l : List (Nat × List Char)) (st : ChunkState)
    (h1 : st.acc.map (fun c => c.chunkIndex) = List.range' 0 st.acc.length)
    (h2 : st.idx = st.acc.length) :
    (l.foldl (chunkLine hash maxC ov minC) st).acc.map (fun c => c.chunkIndex) =
      List.range' 0 (l.foldl (chunkLine hash maxC ov minC) st).acc.length ∧
    (l.foldl (chunkLine hash maxC ov minC) st).idx =
      (l.foldl (chunkLine hash maxC ov minC) st).acc.length := by
  induction l generalizing st with
  | nil => exact ⟨h1, h2⟩
  | cons p rest ih =>
    simp only [List.foldl_cons]
    have h := chunkLine_inv hash maxC ov minC st p h1 h2
    exact ih _ h.1 h.2

/-- C10: the chunk sequence of `chunk_markdown` carries `chunkIndex`
values `0, 1, 2, …` in list order with no gaps; consequently any
injective id derivation applied to the ordinals (such as
`sha256(relPath + "#" + ordinal)` in the indexer) addresses each chunk
uniquely. -/
theorem chunk_index_contiguity (hash : List Char → List Char)
    (text : List Char) (maxC ov minC : Nat) :
    (chunkMarkdown hash text maxC ov minC).2.map (fun c => c.chunkIndex) =
      List.range (chunkMarkdown hash text maxC ov minC).2.length ∧
    ∀ (f : Nat → String), Function.Injective f →
      ((chunkMarkdown hash text maxC ov minC).2.map
        (fun c => f c.chunkIndex)).Nodup := by
  have hmain : (chunkMarkdown hash text maxC ov minC).2.map (fun c => c.chunkIndex) =
      List.range (chunkMarkdown hash text maxC ov minC).2.length := by
    unfold chunkMarkdown
    simp only
    rw [List.range_eq_range']
    exact (flushParagraph_inv hash maxC ov minC _ _
      (chunkFold_inv hash maxC ov minC _ _ (by rfl) (by rfl)).1
      (chunkFold_inv hash maxC ov minC _ _ (by rfl) (by rfl)).2).1
  refine ⟨hmain, ?_⟩
  intro f hinj
  have : (chunkMarkdown hash text maxC ov minC).2.map (fun c => f c.chunkIndex) =
      ((chunkMarkdown hash text maxC ov minC).2.map (fun c => c.chunkIndex)).map f := by
    rw [List.map_map]
    rfl
  rw [this, hmain]
  exact (List.nodup_range _).map hinj

/-- Witness for C10's injectivity hypothesis at a concrete input. -/
theorem chunk_index_contiguity_witness :
    ((chunkMarkdown (fun t => t) "# H\n\npara\n\npara2\n".data 1200 150 80).2.map
      (fun c => (fun n => String.mk (List.replicate n 'x')) c.chunkIndex)).Nodup := by
  have h := chunk_index_contiguity (fun t => t) "# H\n\npara\n\npara2\n".data 1200 150 80
  refine h.2 (fun n => String.mk (List.replicate n 'x')) ?_
  intro a b he
  have : (List.replicate a 'x').length = (List.replicate b 'x').length := by
    rw [show List.replicate a 'x' = List.replicate b 'x' from congrArg String.data he]
  simpa using this

/-! ## C7: heading-scoped chunking -/

/-- The hash-erased run computes exactly the chunker's non-hash fields:
flush step. -/
theorem flushParagraph_commute (hash : List Char → List Char)
    (maxC ov minC : Nat) (st : ChunkState) (e : Nat) :
    stripState (flushParagraph hash maxC ov minC st e) =
      bareFlush maxC ov minC (stripState st) e := by
  by_cases hraw : pyTrim (joinLines st.buf) = []
  · unfold flushParagraph bareFlush
    rw [if_pos hraw, if_pos (show pyTrim (joinLines (stripState st).buf) = [] from hraw)]
    rfl
  · unfold flushParagraph bareFlush
    rw [if_neg hraw, if_neg (show ¬ pyTrim (joinLines (stripState st).buf) = [] from hraw)]
    simp only [stripState, List.map_append, List.map_map]
    rfl

/-- The hash-erased run computes exactly the chunker's non-hash fields:
line step. -/
theorem chunkLine_commute (hash : List Char → List Char)
    (maxC ov minC : Nat) (st : ChunkState) (p : Nat × List Char) :
    stripState (chunkLine hash maxC ov minC st p) =
      bareLine maxC ov minC (stripState st) p := by
  rcases hp : parseHeading p.2 with _ | lt
  · simp only [chunkLine, bareLine, hp]
    by_cases hb : pyTrim p.2 = []
    · rw [if_pos hb, if_pos hb]
      rw [show stripState { flushParagraph hash maxC ov minC st (p.1 + 1) with
          pStart := p.1 + 2 } =
        { stripState (flushParagraph hash maxC ov minC st (p.1 + 1)) with
          pStart := p.1 + 2 } from rfl]
      rw [flushParagraph_commute]
    · rw [if_neg hb, if_neg hb]
      rfl
  · simp only [chunkLine, bareLine, hp]
    have hf := flushParagraph_commute hash maxC ov minC st p.1
    rw [show stripState { flushParagraph hash maxC ov minC st p.1 with
        stack := popGE lt.1 (flushParagraph hash maxC ov minC st p.1).stack ++ [lt],
        curPath := joinPath (popGE lt.1 (flushParagraph hash maxC ov minC st p.1).stack ++ [lt]),
        pStart := p.1 + 2 } =
      { stripState (flushParagraph hash maxC ov minC st p.1) with
        stack := popGE lt.1 (stripState (flushParagraph hash maxC ov minC st p.1)).stack ++ [lt],
        curPath := joinPath (popGE lt.1 (stripState (flushParagraph hash maxC ov minC st p.1)).stack ++ [lt]),
        pStart := p.1 + 2 } from rfl]
    rw [hf]

/-- The hash-erased run computes exactly the chunker's non-hash fields:
whole pipeline. -/
theorem chunkMarkdown_commute (hash : List Char → List Char)
    (text : List Char) (maxC ov minC : Nat) :
    (chunkMarkdown hash text maxC ov minC).1 = (bareChunkMarkdown text maxC ov minC).1 ∧
    (chunkMarkdown hash text maxC ov minC).2.map eraseHash =
      (bareChunkMarkdown text maxC ov minC).2 := by
  have hfold : ∀ (l : List (Nat × List Char)) (st : ChunkState),
      stripState (l.foldl (chunkLine hash maxC ov minC) st) =
        l.foldl (bareLine maxC ov minC) (stripState st) := by
    intro l
    induction l with
    | nil => intro st; rfl
    | cons p rest ih =>
      intro st
      simp only [List.foldl_cons]
      rw [ih, chunkLine_commute]
  refine ⟨rfl, ?_⟩
  have hfin := flushParagraph_commute hash maxC ov minC
    ((((splitLines text).drop (parseFrontmatter (splitLines text)).2).enumFrom
      (parseFrontmatter (splitLines text)).2).foldl (chunkLine hash maxC ov minC)
      ⟨[], [], [], (parseFrontmatter (splitLines text)).2 + 1, 0, []⟩)
    (splitLines text).length
  rw [hfold] at hfin
  exact congrArg BareState.accBare hfin

/-- C7: the scenario — front matter `title: Doc`, body
`# H1\n\npara1\n\n## H2\n\npara2\n`, generous `maxChars` — yields exactly
2 chunks with heading paths `"H1"` and `"H1 > H2"` (for every hash
primitive); and in general, on a heading line the paragraph buffer is
flushed under the pre-heading context (every fresh chunk carries the
current heading path), then stack entries with level ≥ the new level are
popped before the new heading is pushed and the context re-joined with
`" > "`. -/
theorem heading_scoped_chunking :
    (∀ hash : List Char → List Char,
      (chunkMarkdown hash "---\ntitle: Doc\n---\n# H1\n\npara1\n\n## H2\n\npara2\n".data
        1200 150 80).2.length = 2 ∧
      (chunkMarkdown hash "---\ntitle: Doc\n---\n# H1\n\npara1\n\n## H2\n\npara2\n".data
        1200 150 80).2.map (fun c => c.headingPath) = ["H1".data, "H1 > H2".data] ∧
      alookup (chunkMarkdown hash "---\ntitle: Doc\n---\n# H1\n\npara1\n\n## H2\n\npara2\n".data
        1200 150 80).1 "title".data = some (YamlVal.s "Doc".data)) ∧
    (∀ hash maxC ov minC (st : ChunkState) (i : Nat) (line : List Char) lvl title,
      parseHeading line = some (lvl, title) →
      (chunkLine hash maxC ov minC st (i, line)).stack =
        popGE lvl st.stack ++ [(lvl, title)] ∧
      (chunkLine hash maxC ov minC st (i, line)).curPath =
        joinPath (popGE lvl st.stack ++ [(lvl, title)]) ∧
      (chunkLine hash maxC ov minC st (i, line)).acc =
        (flushParagraph hash maxC ov minC st i).acc ∧
      ∀ c ∈ (flushParagraph hash maxC ov minC st i).acc,
        c ∈ st.acc ∨ c.headingPath = st.curPath) := by
  constructor
  · intro hash
    have hc := chunkMarkdown_commute hash
      "---\ntitle: Doc\n---\n# H1\n\npara1\n\n## H2\n\npara2\n".data 1200 150 80
    have hlen : (chunkMarkdown hash
        "---\ntitle: Doc\n---\n# H1\n\npara1\n\n## H2\n\npara2\n".data
        1200 150 80).2.length =
        (bareChunkMarkdown "---\ntitle: Doc\n---\n# H1\n\npara1\n\n## H2\n\npara2\n".data
          1200 150 80).2.length := by
      rw [← hc.2, List.length_map]
    have hpath : (chunkMarkdown hash
        "---\ntitle: Doc\n---\n# H1\n\npara1\n\n## H2\n\npara2\n".data
        1200 150 80).2.map (fun c => c.headingPath) =
        (bareChunkMarkdown "---\ntitle: Doc\n---\n# H1\n\npara1\n\n## H2\n\npara2\n".data
          1200 150 80).2.map (fun b => b.headingPath) := by
      rw [← hc.2, List.map_map]
      rfl
    refine ⟨by rw [hlen]; decide, by rw [hpath]; decide, by rw [hc.1]; decide⟩
  · intro hash maxC ov minC st i line lvl title hp
    have hstack : ∀ e, (flushParagraph hash maxC ov minC st e).stack = st.stack := by
      intro e
      unfold flushParagraph
      by_cases hraw : pyTrim (joinLines st.buf) = []
      · simp only [hraw, if_pos]
      · simp only [hraw, if_neg, reduceIte]
    refine ⟨?_, ?_, ?_, ?_⟩
    · simp only [chunkLine, hp, hstack]
    · simp only [chunkLine, hp, hstack]
    · simp only [chunkLine, hp]
    · intro c hc
      unfold flushParagraph at hc
      by_cases hraw : pyTrim (joinLines st.buf) = []
      · rw [if_pos hraw] at hc
        exact Or.inl hc
      · rw [if_neg hraw] at hc
        simp only at hc
        rcases List.mem_append.mp hc with h | h
        · exact Or.inl h
        · rcases List.mem_map.mp h with ⟨p, _, hpe⟩
          right
          rw [← hpe]

/-- Witness for C7's heading-step clause at a concrete state and heading
line. -/
theorem heading_scoped_chunking_witness :
    (chunkLine (fun t => t) 1200 150 80
      ⟨[(1, "H1".data)], "H1".data, [], 6, 1, []⟩ (7, "## H2".data)).stack =
      popGE 2 [(1, "H1".data)] ++ [(2, "H2".data)] := by
  have h := heading_scoped_chunking
  exact (h.2 (fun t => t) 1200 150 80 ⟨[(1, "H1".data)], "H1".data, [], 6, 1, []⟩
    7 "## H2".data 2 "H2".data (by decide)).1

/-! ## C8: link extraction order -/

theorem scanPos_zero (matchAt : List Char → Option (List Char × Nat)) (pos : Nat)
    (l : List Char) : scanPos matchAt 0 pos l = [] := by
  cases l <;> rfl

theorem scanPos_pos_ge (matchAt : List Char → Option (List Char × Nat)) :
    ∀ fuel pos l, ∀ p ∈ scanPos matchAt fuel pos l, pos ≤ p.1 := by
  intro fuel
  induction fuel with
  | zero =>
    intro pos l p hp
    rw [scanPos_zero] at hp
    cases hp
  | succ fuel ih =>
    intro pos l p hp
    cases l with
    | nil => cases hp
    | cons c tail =>
      unfold scanPos at hp
      cases hmt : matchAt (c :: tail) with
      | some tl =>
        rw [hmt] at hp
        rcases List.mem_cons.mp hp with h | h
        · rw [h]
        · have := ih (pos + max 1 tl.2) _ p h
          omega
      | none =>
        rw [hmt] at hp
        have := ih (pos + 1) tail p hp
        omega

theorem scanPos_pairwise (matchAt : List Char → Option (List Char × Nat)) :
    ∀ fuel pos l, (scanPos matchAt fuel pos l).Pairwise (fun a b => a.1 < b.1) := by
  intro fuel
  induction fuel with
  | zero =>
    intro pos l
    rw [scanPos_zero]
    exact List.Pairwise.nil
  | succ fuel ih =>
    intro pos l
    cases l with
    | nil => exact List.Pairwise.nil
    | cons c tail =>
      show ((scanPos matchAt (fuel + 1) pos (c :: tail))).Pairwise (fun a b => a.1 < b.1)
      unfold scanPos
      cases hmt : matchAt (c :: tail) with
      | some tl =>
        refine List.Pairwise.cons ?_ (ih (pos + max 1 tl.2) _)
        intro b hb
        have h1 := scanPos_pos_ge matchAt fuel (pos + max 1 tl.2) _ b hb
        simp only
        omega
      | none => exact ih (pos + 1) tail

/-- C8 (amended): `extract_links` returns one entry per markdown-link
occurrence in order of appearance, followed by one entry per wiki-link
occurrence in order of appearance — the two kinds are grouped, not
interleaved by occurrence — with duplicates retained and each entry
carrying its kind and stripped target. -/
theorem extract_links_grouped_order (text : List Char) :
    extractLinks text =
      (mdLinksPos text).map (fun p => (LinkKind.md, pyTrim p.2)) ++
      (wikiLinksPos text).map (fun p => (LinkKind.wiki, pyTrim p.2)) ∧
    (mdLinksPos text).Pairwise (fun a b => a.1 < b.1) ∧
    (wikiLinksPos text).Pairwise (fun a b => a.1 < b.1) ∧
    extractLinks "[a](b) [a](b)".data =
      [(LinkKind.md, "b".data), (LinkKind.md, "b".data)] := by
  refine ⟨rfl, ?_, ?_, by decide⟩
  · exact scanPos_pairwise mdMatchAt _ 0 text
  · exact scanPos_pairwise wikiMatchAt _ 0 text

/-- Counterexample to C8 as stated: in `"[[w]] [a](b)"` the wiki link
occurs at position 0 and the markdown link at position 6, yet the output
lists the markdown link first — not the order of appearance. -/
theorem extract_links_order_counterexample :
    extractLinks "[[w]] [a](b)".data =
      [(LinkKind.md, "b".data), (LinkKind.wiki, "w".data)] ∧
    mdLinksPos "[[w]] [a](b)".data = [(6, "b".data)] ∧
    wikiLinksPos "[[w]] [a](b)".data = [(0, "w".data)] ∧
    extractLinks "[[w]] [a](b)".data ≠
      [(LinkKind.wiki, "w".data), (LinkKind.md, "b".data)] := by
  decide

/-! ## C6: embedding failure isolation -/

theorem filter_eq_of_filter_ne [DecidableEq β] (l : List α) (f : α → β) (a b : β)
    (h : b ≠ a) :
    (l.filter (fun c => f c ≠ a)).filter (fun c => f c = b) =
      l.filter (fun c => f c = b) := by
  simp only [List.filter_filter]
  apply List.filter_congr
  intro x _
  by_cases hb : f x = b
  · have hna : f x ≠ a := by rw [hb]; exact h
    simp [hb, hna, h]
  · simp [hb]

theorem filter_after_filter_ne_nil [DecidableEq β] (l : List α) (f : α → β) (a : β) :
    (l.filter (fun c => f c ≠ a)).filter (fun c => f c = a) = [] := by
  rw [List.filter_eq_nil_iff]
  intro c hc
  have := List.of_mem_filter hc
  simp only [decide_eq_true_eq] at this ⊢
  simpa using this

theorem filter_map_key_all [DecidableEq β] (l : List γ) (g : γ → α) (f : α → β)
    (b : β) (h : ∀ x, f (g x) = b) :
    (l.map g).filter (fun c => f c = b) = l.map g := by
  rw [List.filter_eq_self]
  intro a ha
  rcases List.mem_map.mp ha with ⟨x, _, hx⟩
  simp [← hx, h x]

theorem filter_map_key_none [DecidableEq β] (l : List γ) (g : γ → α) (f : α → β)
    (b : β) (h : ∀ x, f (g x) ≠ b) :
    (l.map g).filter (fun c => f c = b) = [] := by
  rw [List.filter_eq_nil_iff]
  intro a ha
  rcases List.mem_map.mp ha with ⟨x, _, hx⟩
  simp [← hx, h x]

theorem filter_sub_nil (l : List α) (p q : α → Bool) (h : l.filter q = []) :
    (l.filter p).filter q = [] := by
  rw [List.filter_eq_nil_iff] at h ⊢
  intro a ha
  exact h a (List.mem_of_mem_filter ha)

theorem find?_upsertDocRow_self (l : List DocRow) (d : DocRow) :
    (upsertDocRow l d).find? (fun r => r.docId = d.docId) = some d := by
  induction l with
  | nil =>
    simp only [upsertDocRow]
    rw [List.find?_cons_of_pos _ (by simp)]
  | cons r rest ih =>
    simp only [upsertDocRow]
    by_cases h : r.docId = d.docId
    · rw [if_pos h, List.find?_cons_of_pos _ (by simp)]
    · rw [if_neg h, List.find?_cons_of_neg _ (by simpa using h), ih]

theorem find?_upsertDocRow_ne (l : List DocRow) (e : DocRow) (docId : String)
    (h : e.docId ≠ docId) :
    (upsertDocRow l e).find? (fun r => r.docId = docId) =
      l.find? (fun r => r.docId = docId) := by
  induction l with
  | nil =>
    simp only [upsertDocRow]
    rw [List.find?_cons_of_neg _ (by simpa using h)]
  | cons r rest ih =>
    simp only [upsertDocRow]
    by_cases hre : r.docId = e.docId
    · rw [if_pos hre, List.find?_cons_of_neg _ (by simpa using h),
        List.find?_cons_of_neg _ (by simp [hre, h])]
    · rw [if_neg hre]
      by_cases hr : r.docId = docId
      · rw [List.find?_cons_of_pos _ (by simpa using hr),
          List.find?_cons_of_pos _ (by simpa using hr)]
      · rw [List.find?_cons_of_neg _ (by simpa using hr),
          List.find?_cons_of_neg _ (by simpa using hr), ih]

theorem embFilter_upsertEmbRow_ne (t : List EmbTableRow) (row : EmbTableRow)
    (cid : String) (h : row.chunkId ≠ cid) :
    (upsertEmbRow t row).filter (fun e => e.chunkId = cid) =
      t.filter (fun e => e.chunkId = cid) := by
  induction t with
  | nil =>
    simp only [upsertEmbRow]
    simp [List.filter_cons, h]
  | cons r rest ih =>
    simp only [upsertEmbRow]
    by_cases hr : r.chunkId = row.chunkId
    · rw [if_pos hr]
      have hrc : ¬ r.chunkId = cid := by rw [hr]; exact h
      simp [List.filter_cons, h, hrc]
    · rw [if_neg hr]
      by_cases hrc : r.chunkId = cid <;> simp [List.filter_cons, hrc, ih]

theorem embFilter_foldl_upsert_nil (rows : List (String × List ℚ))
    (sqrtFn : ℚ → ℚ) (model createdAt : String) (t : List EmbTableRow) (cid : String)
    (h : t.filter (fun e => e.chunkId = cid) = [])
    (hall : ∀ x ∈ rows, x.1 ≠ cid) :
    ((rows.foldl (fun t2 e =>
        upsertEmbRow t2 ⟨e.1, model, e.2.length, e.2, sqrtFn (l2NormSq e.2), createdAt⟩)
      t).filter (fun e => e.chunkId = cid)) = [] := by
  induction rows generalizing t with
  | nil => exact h
  | cons x rest ih =>
    simp only [List.foldl_cons]
    refine ih _ ?_ (fun y hy => hall y (List.mem_cons_of_mem _ hy))
    rw [embFilter_upsertEmbRow_ne _ _ _ (hall x (List.mem_cons_self _ _))]
    exact h

theorem upsertDocAndChunks_embeddings (st : Store) (doc : DocRow)
    (chunks : List ChunkDict) (links : List LinkRow) :
    (upsertDocAndChunks st doc chunks links).embeddings =
      st.embeddings.filter (fun e =>
        e.chunkId ∉ ((st.chunks.filter (fun c => c.docId = doc.docId)).map
          (fun c => c.chunkId))) :=
  rfl

theorem mem_upsertEmbRow (t : List EmbTableRow) (r row : EmbTableRow)
    (h : row ∈ upsertEmbRow t r) : row ∈ t ∨ row = r := by
  induction t with
  | nil => simpa [upsertEmbRow] using h
  | cons x rest ih =>
    simp only [upsertEmbRow] at h
    by_cases hx : x.chunkId = r.chunkId
    · rw [if_pos hx] at h
      rcases List.mem_cons.mp h with h2 | h2
      · exact Or.inr h2
      · exact Or.inl (List.mem_cons_of_mem _ h2)
    · rw [if_neg hx] at h
      rcases List.mem_cons.mp h with h2 | h2
      · exact Or.inl (h2 ▸ List.mem_cons_self _ _)
      · rcases ih h2 with h3 | h3
        · exact Or.inl (List.mem_cons_of_mem _ h3)
        · exact Or.inr h3

theorem mem_foldl_upsertEmb (rows : List (String × List ℚ)) (sqrtFn : ℚ → ℚ)
    (model createdAt : String) (t : List EmbTableRow) (row : EmbTableRow)
    (h : row ∈ rows.foldl (fun t2 e =>
      upsertEmbRow t2 ⟨e.1, model, e.2.length, e.2, sqrtFn (l2NormSq e.2), createdAt⟩) t) :
    row ∈ t ∨ row.chunkId ∈ rows.map Prod.fst := by
  induction rows generalizing t with
  | nil => exact Or.inl h
  | cons x rest ih =>
    simp only [List.foldl_cons] at h
    rcases ih _ h with h2 | h2
    · rcases mem_upsertEmbRow _ _ _ h2 with h3 | h3
      · exact Or.inl h3
      · exact Or.inr (by simp [h3])
    · exact Or.inr (by
        simp only [List.map_cons]
        exact List.mem_cons_of_mem _ h2)

theorem processDoc_docs (sqrtFn : ℚ → ℚ)
    (embedFn : List (List Char) → Except String (List (List ℚ)))
    (canEmbed : Bool) (model : String) (st : Store) (d : DocSpec) :
    (processDoc sqrtFn embedFn canEmbed model st d).docs =
      upsertDocRow st.docs d.doc := by
  unfold processDoc
  by_cases hce : canEmbed = true ∧ d.chunks ≠ []
  · rw [if_pos hce]
    cases embedFn (d.chunks.map (fun c => c.text)) <;> rfl
  · rw [if_neg hce]
    rfl

theorem processDoc_chunks (sqrtFn : ℚ → ℚ)
    (embedFn : List (List Char) → Except String (List (List ℚ)))
    (canEmbed : Bool) (model : String) (st : Store) (d : DocSpec) :
    (processDoc sqrtFn embedFn canEmbed model st d).chunks =
      st.chunks.filter (fun c => c.docId ≠ d.doc.docId) ++
        d.chunks.map (chunkRowOfDict d.doc.docId) := by
  unfold processDoc
  by_cases hce : canEmbed = true ∧ d.chunks ≠ []
  · rw [if_pos hce]
    cases embedFn (d.chunks.map (fun c => c.text)) <;> rfl
  · rw [if_neg hce]
    rfl

theorem processDoc_chunkFts (sqrtFn : ℚ → ℚ)
    (embedFn : List (List Char) → Except String (List (List ℚ)))
    (canEmbed : Bool) (model : String) (st : Store) (d : DocSpec) :
    (processDoc sqrtFn embedFn canEmbed model st d).chunkFts =
      st.chunkFts.filter (fun f => f.relPath ≠ d.doc.relPath) ++
        d.chunks.map (ftsRowFor d.doc.title d.doc.relPath) := by
  unfold processDoc
  by_cases hce : canEmbed = true ∧ d.chunks ≠ []
  · rw [if_pos hce]
    cases embedFn (d.chunks.map (fun c => c.text)) <;> rfl
  · rw [if_neg hce]
    rfl

theorem processDoc_links (sqrtFn : ℚ → ℚ)
    (embedFn : List (List Char) → Except String (List (List ℚ)))
    (canEmbed : Bool) (model : String) (st : Store) (d : DocSpec) :
    (processDoc sqrtFn embedFn canEmbed model st d).links =
      st.links.filter (fun l => l.sourceRelPath ≠ d.doc.relPath) ++
        linkRowsFor d.doc.relPath d.links := by
  unfold processDoc
  by_cases hce : canEmbed = true ∧ d.chunks ≠ []
  · rw [if_pos hce]
    cases embedFn (d.chunks.map (fun c => c.text)) <;> rfl
  · rw [if_neg hce]
    rfl

theorem processDoc_embIn_nil (sqrtFn : ℚ → ℚ)
    (embedFn : List (List Char) → Except String (List (List ℚ)))
    (canEmbed : Bool) (model : String) (st : Store) (d : DocSpec) (cid : String)
    (hnil : embIn st cid = [])
    (hnot : ∀ ch ∈ d.chunks, ch.chunkId ≠ cid) :
    embIn (processDoc sqrtFn embedFn canEmbed model st d) cid = [] := by
  have hstruct : embIn (upsertDocAndChunks st d.doc d.chunks d.links) cid = [] := by
    unfold embIn at hnil ⊢
    unfold upsertDocAndChunks
    exact filter_sub_nil _ _ _ hnil
  unfold processDoc
  by_cases hce : canEmbed = true ∧ d.chunks ≠ []
  · rw [if_pos hce]
    cases hres : embedFn (d.chunks.map (fun c => c.text)) with
    | ok vecs =>
      unfold embIn upsertEmbeddings
      simp only
      refine embFilter_foldl_upsert_nil _ _ _ _ _ _ ?_ ?_
      · exact hstruct
      · intro x hx
        have hx1 := (List.of_mem_zip hx).1
        rcases List.mem_map.mp hx1 with ⟨ch, hch, hche⟩
        exact hche ▸ hnot ch hch
    | error err => exact hstruct
  · rw [if_neg hce]
    exact hstruct

/-- Processing another document preserves the embedding-scoping
invariant at a foreign chunk id: its upsert only deletes embedding rows,
its chunk deletion only touches its own `docId`, and its embedding
insertions only touch its own chunk ids. -/
theorem embScoped_processDoc_preserve (sqrtFn : ℚ → ℚ)
    (embedFn : List (List Char) → Except String (List (List ℚ)))
    (canEmbed : Bool) (model : String) (st : Store) (e : DocSpec)
    (docId cid : String) (hdoc : e.doc.docId ≠ docId)
    (hcid : ∀ ch ∈ e.chunks, ch.chunkId ≠ cid)
    (h : embScoped st docId cid) :
    embScoped (processDoc sqrtFn embedFn canEmbed model st e) docId cid := by
  have hbase : ∀ row ∈ st.embeddings, row.chunkId = cid →
      ∃ c ∈ (processDoc sqrtFn embedFn canEmbed model st e).chunks,
        c.chunkId = cid ∧ c.docId = docId := by
    intro row hrow hc
    rcases h row hrow hc with ⟨c, hcmem, hcc, hcd⟩
    refine ⟨c, ?_, hcc, hcd⟩
    rw [processDoc_chunks]
    refine List.mem_append_of_mem_left _ (List.mem_filter.mpr ⟨hcmem, ?_⟩)
    have hne : c.docId ≠ e.doc.docId := by
      rw [hcd]
      exact fun hh => hdoc hh.symm
    simpa using hne
  intro row hrow hc
  unfold processDoc at hrow
  by_cases hce : canEmbed = true ∧ e.chunks ≠ []
  · rw [if_pos hce] at hrow
    cases hres : embedFn (e.chunks.map (fun c => c.text)) with
    | ok vecs =>
      simp only [hres] at hrow
      have hrow2 : row ∈ List.foldl
          (fun t2 p => upsertEmbRow t2 ⟨p.1, model, p.2.length, p.2, sqrtFn (l2NormSq p.2), ""⟩)
          (upsertDocAndChunks st e.doc e.chunks e.links).embeddings
          ((e.chunks.map (fun c => c.chunkId)).zip vecs) := hrow
      have h2 := mem_foldl_upsertEmb _ sqrtFn model "" _ row hrow2
      rcases h2 with hin | hzip
      · rw [upsertDocAndChunks_embeddings] at hin
        exact hbase row (List.mem_of_mem_filter hin) hc
      · exfalso
        rcases List.mem_map.mp hzip with ⟨pr, hpr, hpre⟩
        have hfst := (List.of_mem_zip hpr).1
        rcases List.mem_map.mp hfst with ⟨ch, hch, hche⟩
        refine hcid ch hch ?_
        rw [hche, hpre, hc]
    | error err =>
      simp only [hres] at hrow
      rw [upsertDocAndChunks_embeddings] at hrow
      exact hbase row (List.mem_of_mem_filter hrow) hc
  · rw [if_neg hce] at hrow
    rw [upsertDocAndChunks_embeddings] at hrow
    exact hbase row (List.mem_of_mem_filter hrow) hc

theorem embScoped_processDocs_preserve (sqrtFn : ℚ → ℚ)
    (embedFn : List (List Char) → Except String (List (List ℚ)))
    (canEmbed : Bool) (model : String) (l : List DocSpec) (st : Store)
    (docId cid : String)
    (hdoc : ∀ e ∈ l, e.doc.docId ≠ docId)
    (hcid : ∀ e ∈ l, ∀ ch ∈ e.chunks, ch.chunkId ≠ cid)
    (h : embScoped st docId cid) :
    embScoped (processChangedDocs sqrtFn embedFn canEmbed model st l) docId cid := by
  induction l generalizing st with
  | nil => exact h
  | cons e rest ih =>
    show embScoped ((e :: rest).foldl (processDoc sqrtFn embedFn canEmbed model) st)
      docId cid
    rw [List.foldl_cons]
    exact ih _ (fun e2 he2 => hdoc e2 (List.mem_cons_of_mem _ he2))
      (fun e2 he2 => hcid e2 (List.mem_cons_of_mem _ he2))
      (embScoped_processDoc_preserve sqrtFn embedFn canEmbed model st e docId cid
        (hdoc e (List.mem_cons_self _ _)) (hcid e (List.mem_cons_self _ _)) h)

/-- Frame: processing a document whose doc id, rel path and chunk ids all
differ from `d`'s leaves every selector of `d` unchanged. -/
theorem processDoc_frame (sqrtFn : ℚ → ℚ)
    (embedFn : List (List Char) → Except String (List (List ℚ)))
    (canEmbed : Bool) (model : String) (st : Store) (e d : DocSpec)
    (hdoc : e.doc.docId ≠ d.doc.docId) (hrel : e.doc.relPath ≠ d.doc.relPath) :
    docRowIn (processDoc sqrtFn embedFn canEmbed model st e) d.doc.docId =
      docRowIn st d.doc.docId ∧
    chunksIn (processDoc sqrtFn embedFn canEmbed model st e) d.doc.docId =
      chunksIn st d.doc.docId ∧
    ftsIn (processDoc sqrtFn embedFn canEmbed model st e) d.doc.relPath =
      ftsIn st d.doc.relPath ∧
    linksIn (processDoc sqrtFn embedFn canEmbed model st e) d.doc.relPath =
      linksIn st d.doc.relPath := by
  refine ⟨?_, ?_, ?_, ?_⟩
  · unfold docRowIn
    rw [processDoc_docs]
    exact find?_upsertDocRow_ne st.docs e.doc d.doc.docId hdoc
  · unfold chunksIn
    rw [processDoc_chunks, List.filter_append,
      filter_eq_of_filter_ne st.chunks (fun c => c.docId) e.doc.docId d.doc.docId
        (fun he => hdoc he.symm),
      filter_map_key_none e.chunks (chunkRowOfDict e.doc.docId) (fun c => c.docId)
        d.doc.docId (fun x => by simpa [chunkRowOfDict] using hdoc),
      List.append_nil]
  · unfold ftsIn
    rw [processDoc_chunkFts, List.filter_append,
      filter_eq_of_filter_ne st.chunkFts (fun f => f.relPath) e.doc.relPath
        d.doc.relPath (fun he => hrel he.symm),
      filter_map_key_none e.chunks (ftsRowFor e.doc.title e.doc.relPath)
        (fun f => f.relPath) d.doc.relPath (fun x => by simpa [ftsRowFor] using hrel),
      List.append_nil]
  · unfold linksIn
    rw [processDoc_links, List.filter_append,
      filter_eq_of_filter_ne st.links (fun l => l.sourceRelPath) e.doc.relPath
        d.doc.relPath (fun he => hrel he.symm)]
    have : (linkRowsFor e.doc.relPath e.links).filter
        (fun l => l.sourceRelPath = d.doc.relPath) = [] := by
      rw [List.filter_eq_nil_iff]
      intro a ha
      rcases List.mem_map.mp ha with ⟨x, _, hx⟩
      simp [← hx, hrel]
    rw [this, List.append_nil]

/-- After processing document `d` itself, its structural rows are exactly
what the upsert wrote, and when the embedding call failed (or embedding
was disabled) no embedding row exists for its chunks. -/
theorem processDoc_self (sqrtFn : ℚ → ℚ)
    (embedFn : List (List Char) → Except String (List (List ℚ)))
    (canEmbed : Bool) (model : String) (st : Store) (d : DocSpec) :
    docRowIn (processDoc sqrtFn embedFn canEmbed model st d) d.doc.docId =
      some d.doc ∧
    chunksIn (processDoc sqrtFn embedFn canEmbed model st d) d.doc.docId =
      d.chunks.map (chunkRowOfDict d.doc.docId) ∧
    ftsIn (processDoc sqrtFn embedFn canEmbed model st d) d.doc.relPath =
      d.chunks.map (ftsRowFor d.doc.title d.doc.relPath) ∧
    linksIn (processDoc sqrtFn embedFn canEmbed model st d) d.doc.relPath =
      linkRowsFor d.doc.relPath d.links ∧
    (∀ err, embedFn (d.chunks.map (fun c => c.text)) = Except.error err →
      ∀ ch ∈ d.chunks, embScoped st d.doc.docId ch.chunkId →
        embIn (processDoc sqrtFn embedFn canEmbed model st d) ch.chunkId = []) := by
  refine ⟨?_, ?_, ?_, ?_, ?_⟩
  · unfold docRowIn
    rw [processDoc_docs]
    exact find?_upsertDocRow_self st.docs d.doc
  · unfold chunksIn
    rw [processDoc_chunks, List.filter_append,
      filter_after_filter_ne_nil st.chunks (fun c => c.docId) d.doc.docId,
      filter_map_key_all d.chunks (chunkRowOfDict d.doc.docId) (fun c => c.docId)
        d.doc.docId (fun x => rfl),
      List.nil_append]
  · unfold ftsIn
    rw [processDoc_chunkFts, List.filter_append,
      filter_after_filter_ne_nil st.chunkFts (fun f => f.relPath) d.doc.relPath,
      filter_map_key_all d.chunks (ftsRowFor d.doc.title d.doc.relPath)
        (fun f => f.relPath) d.doc.relPath (fun x => rfl),
      List.nil_append]
  · unfold linksIn
    rw [processDoc_links, List.filter_append,
      filter_after_filter_ne_nil st.links (fun l => l.sourceRelPath) d.doc.relPath]
    have : (linkRowsFor d.doc.relPath d.links).filter
        (fun l => l.sourceRelPath = d.doc.relPath) = linkRowsFor d.doc.relPath d.links := by
      rw [List.filter_eq_self]
      intro a ha
      rcases List.mem_map.mp ha with ⟨x, _, hx⟩
      simp [← hx]
    rw [this, List.nil_append]
  · intro err herr ch hch hscoped
    have hstruct : embIn (upsertDocAndChunks st d.doc d.chunks d.links) ch.chunkId = [] := by
      unfold embIn
      rw [upsertDocAndChunks_embeddings, List.filter_eq_nil_iff]
      intro row hrow hceq
      rcases List.mem_filter.mp hrow with ⟨hrow0, hnotold0⟩
      have hcideq : row.chunkId = ch.chunkId := of_decide_eq_true hceq
      have hnotold : row.chunkId ∉ ((st.chunks.filter (fun c2 => c2.docId = d.doc.docId)).map
          (fun c2 => c2.chunkId)) := of_decide_eq_true hnotold0
      rcases hscoped row hrow0 hcideq with ⟨c, hcmem, hcc, hcd⟩
      refine hnotold (List.mem_map.mpr ⟨c, List.mem_filter.mpr ⟨hcmem, by simp [hcd]⟩, ?_⟩)
      rw [hcc, hcideq]
    unfold processDoc
    by_cases hce : canEmbed = true ∧ d.chunks ≠ []
    · rw [if_pos hce]
      simp only [herr]
      exact hstruct
    · rw [if_neg hce]
      exact hstruct

theorem processDocs_embIn_nil (sqrtFn : ℚ → ℚ)
    (embedFn : List (List Char) → Except String (List (List ℚ)))
    (canEmbed : Bool) (model : String) (l : List DocSpec) (st : Store) (cid : String)
    (h : embIn st cid = [])
    (hall : ∀ e ∈ l, ∀ ch ∈ e.chunks, ch.chunkId ≠ cid) :
    embIn (processChangedDocs sqrtFn embedFn canEmbed model st l) cid = [] := by
  induction l generalizing st with
  | nil => exact h
  | cons e rest ih =>
    show embIn ((e :: rest).foldl (processDoc sqrtFn embedFn canEmbed model) st) cid = []
    rw [List.foldl_cons]
    exact ih _
      (processDoc_embIn_nil sqrtFn embedFn canEmbed model st e cid h
        (hall e (List.mem_cons_self _ _)))
      (fun e2 he2 => hall e2 (List.mem_cons_of_mem _ he2))

theorem processDocs_frame (sqrtFn : ℚ → ℚ)
    (embedFn : List (List Char) → Except String (List (List ℚ)))
    (canEmbed : Bool) (model : String) (l : List DocSpec) (st : Store) (d : DocSpec)
    (hd : ∀ e ∈ l, e.doc.docId ≠ d.doc.docId)
    (hr : ∀ e ∈ l, e.doc.relPath ≠ d.doc.relPath) :
    docRowIn (processChangedDocs sqrtFn embedFn canEmbed model st l) d.doc.docId =
      docRowIn st d.doc.docId ∧
    chunksIn (processChangedDocs sqrtFn embedFn canEmbed model st l) d.doc.docId =
      chunksIn st d.doc.docId ∧
    ftsIn (processChangedDocs sqrtFn embedFn canEmbed model st l) d.doc.relPath =
      ftsIn st d.doc.relPath ∧
    linksIn (processChangedDocs sqrtFn embedFn canEmbed model st l) d.doc.relPath =
      linksIn st d.doc.relPath := by
  induction l generalizing st with
  | nil => exact ⟨rfl, rfl, rfl, rfl⟩
  | cons e rest ih =>
    have hstep := processDoc_frame sqrtFn embedFn canEmbed model st e d
      (hd e (List.mem_cons_self _ _)) (hr e (List.mem_cons_self _ _))
    have hrest := ih (processDoc sqrtFn embedFn canEmbed model st e)
      (fun e2 he2 => hd e2 (List.mem_cons_of_mem _ he2))
      (fun e2 he2 => hr e2 (List.mem_cons_of_mem _ he2))
    show docRowIn ((e :: rest).foldl (processDoc sqrtFn embedFn canEmbed model) st)
        d.doc.docId = _ ∧ _
    rw [List.foldl_cons]
    exact ⟨hrest.1.trans hstep.1, (hrest.2.1).trans hstep.2.1,
      (hrest.2.2.1).trans hstep.2.2.1, (hrest.2.2.2).trans hstep.2.2.2⟩

theorem nodup_split_map {α β : Type} (pre post : List α) (d : α) (f : α → β)
    (h : ((pre ++ d :: post).map f).Nodup) :
    (∀ e ∈ pre, f e ≠ f d) ∧ (∀ e ∈ post, f e ≠ f d) := by
  rw [List.map_append, List.map_cons] at h
  rcases List.nodup_append.mp h with ⟨h1, h2, hdisj⟩
  refine ⟨?_, ?_⟩
  · intro e he heq
    exact hdisj (List.mem_map_of_mem f he) (by simp [heq])
  · intro e he heq
    exact (List.nodup_cons.mp h2).1 (heq ▸ List.mem_map_of_mem f he)

theorem nodup_split_flat {α β : Type} (pre post : List α) (d : α) (g : α → List β)
    (h : ((pre ++ d :: post).flatMap g).Nodup) :
    ∀ e ∈ pre ++ post, ∀ x ∈ g e, x ∉ g d := by
  rw [List.flatMap_append, List.flatMap_cons] at h
  rcases List.nodup_append.mp h with ⟨h1, h2, hdisj⟩
  rcases List.nodup_append.mp h2 with ⟨h3, h4, hdisj2⟩
  intro e he x hx hxd
  rcases List.mem_append.mp he with he | he
  · exact hdisj (List.mem_flatMap_of_mem he hx) (List.mem_append_of_mem_left _ hxd)
  · exact hdisj2 hxd (List.mem_flatMap_of_mem he hx)

/-- C6: once a changed document's structural upsert has committed, an
embedding-capability failure for its batch is confined to the embedding
transaction: the document's doc row, chunk rows, full-text rows and link
rows are exactly what the upsert wrote, no embedding row exists for its
chunks, and every other changed document — including the ones processed
after the failure — is still fully processed.  The run starts from any
store satisfying the scoping invariant `embScoped`: an embedding row at
one of the document's chunk ids is only present together with a chunk row
of that very document.  Every reachable store satisfies it —
`upsert_embeddings` only writes rows for chunk ids just inserted into
`chunks` for their document, and the deterministic ids
sha256(relPath#ordinal) / sha256(relPath) tie each chunk id to its
document — so re-indexing a previously embedded, edited document is
covered: the upsert's deletion of the doc's old chunk-id embeddings is
what discharges the obligation, exactly as in the code. -/
theorem embedding_failure_isolation (sqrtFn : ℚ → ℚ)
    (embedFn : List (List Char) → Except String (List (List ℚ)))
    (canEmbed : Bool) (model : String) (st0 : Store) (docs : List DocSpec)
    (hdoc : (docs.map (fun d => d.doc.docId)).Nodup)
    (hrel : (docs.map (fun d => d.doc.relPath)).Nodup)
    (hcid : (docs.flatMap (fun d => d.chunks.map (fun c => c.chunkId))).Nodup)
    (hscoped : ∀ d ∈ docs, ∀ ch ∈ d.chunks, embScoped st0 d.doc.docId ch.chunkId) :
    ∀ d ∈ docs,
      docRowIn (processChangedDocs sqrtFn embedFn canEmbed model st0 docs)
        d.doc.docId = some d.doc ∧
      chunksIn (processChangedDocs sqrtFn embedFn canEmbed model st0 docs)
        d.doc.docId = d.chunks.map (chunkRowOfDict d.doc.docId) ∧
      ftsIn (processChangedDocs sqrtFn embedFn canEmbed model st0 docs)
        d.doc.relPath = d.chunks.map (ftsRowFor d.doc.title d.doc.relPath) ∧
      linksIn (processChangedDocs sqrtFn embedFn canEmbed model st0 docs)
        d.doc.relPath = linkRowsFor d.doc.relPath d.links ∧
      (∀ err, embedFn (d.chunks.map (fun c => c.text)) = Except.error err →
        ∀ ch ∈ d.chunks,
          embIn (processChangedDocs sqrtFn embedFn canEmbed model st0 docs)
            ch.chunkId = []) := by
  intro d hd
  obtain ⟨pre, post, hsplit⟩ := List.append_of_mem hd
  subst hsplit
  have hdocs := nodup_split_map pre post d (fun x => x.doc.docId) hdoc
  have hrels := nodup_split_map pre post d (fun x => x.doc.relPath) hrel
  have hcids := nodup_split_flat pre post d (fun x => x.chunks.map (fun c => c.chunkId)) hcid
  have hfold : processChangedDocs sqrtFn embedFn canEmbed model st0 (pre ++ d :: post) =
      processChangedDocs sqrtFn embedFn canEmbed model
        (processDoc sqrtFn embedFn canEmbed model
          (processChangedDocs sqrtFn embedFn canEmbed model st0 pre) d) post := by
    show (pre ++ d :: post).foldl (processDoc sqrtFn embedFn canEmbed model) st0 = _
    rw [List.foldl_append, List.foldl_cons]
    rfl
  rw [hfold]
  have hcid_ne : ∀ e ∈ pre ++ post, ∀ ch2 ∈ e.chunks, ∀ ch ∈ d.chunks,
      ch2.chunkId ≠ ch.chunkId := by
    intro e he ch2 hch2 ch hch heq
    exact hcids e he ch2.chunkId (List.mem_map_of_mem _ hch2)
      (heq ▸ List.mem_map_of_mem (fun c => c.chunkId) hch)
  have hready : ∀ ch ∈ d.chunks,
      embScoped (processChangedDocs sqrtFn embedFn canEmbed model st0 pre)
        d.doc.docId ch.chunkId := by
    intro ch hch
    refine embScoped_processDocs_preserve sqrtFn embedFn canEmbed model pre st0
      d.doc.docId ch.chunkId (fun e he => hdocs.1 e he) ?_ (hscoped d hd ch hch)
    intro e he ch2 hch2
    exact hcid_ne e (List.mem_append_of_mem_left _ he) ch2 hch2 ch hch
  have hself := processDoc_self sqrtFn embedFn canEmbed model
    (processChangedDocs sqrtFn embedFn canEmbed model st0 pre) d
  have hpost := processDocs_frame sqrtFn embedFn canEmbed model post
    (processDoc sqrtFn embedFn canEmbed model
      (processChangedDocs sqrtFn embedFn canEmbed model st0 pre) d) d
    hdocs.2 hrels.2
  refine ⟨hpost.1.trans hself.1, hpost.2.1.trans hself.2.1,
    hpost.2.2.1.trans hself.2.2.1, hpost.2.2.2.trans hself.2.2.2.1, ?_⟩
  intro err herr ch hch
  refine processDocs_embIn_nil sqrtFn embedFn canEmbed model post _ ch.chunkId
    (hself.2.2.2.2 err herr ch hch (hready ch hch)) ?_
  intro e he ch2 hch2
  exact hcid_ne e (List.mem_append_of_mem_right _ he) ch2 hch2 ch hch

/-- Witness for C6: one changed document whose embedding call fails; its
doc row is committed and no embedding row exists for its chunk. -/
theorem embedding_failure_isolation_witness :
    docRowIn (processChangedDocs id (fun _ => Except.error "net") true "m"
      ⟨[], [], [], [], [], [], []⟩
      [⟨⟨"id1", "a.md", "/a.md", "T".data, "S".data, "[]", "[]", 1, 2, "h", "t"⟩,
        [⟨"cid1", 0, [], 1, 2, "hello".data, "th"⟩], []⟩]) "id1" =
      some ⟨"id1", "a.md", "/a.md", "T".data, "S".data, "[]", "[]", 1, 2, "h", "t"⟩ ∧
    embIn (processChangedDocs id (fun _ => Except.error "net") true "m"
      ⟨[], [], [], [], [], [], []⟩
      [⟨⟨"id1", "a.md", "/a.md", "T".data, "S".data, "[]", "[]", 1, 2, "h", "t"⟩,
        [⟨"cid1", 0, [], 1, 2, "hello".data, "th"⟩], []⟩]) "cid1" = [] := by
  have h := embedding_failure_isolation id (fun _ => Except.error "net") true "m"
    ⟨[], [], [], [], [], [], []⟩
    [⟨⟨"id1", "a.md", "/a.md", "T".data, "S".data, "[]", "[]", 1, 2, "h", "t"⟩,
      [⟨"cid1", 0, [], 1, 2, "hello".data, "th"⟩], []⟩]
    (by simp) (by simp) (by simp)
    (by intro d hd ch hch r hr; exact absurd hr (List.not_mem_nil r))
    ⟨⟨"id1", "a.md", "/a.md", "T".data, "S".data, "[]", "[]", 1, 2, "h", "t"⟩,
      [⟨"cid1", 0, [], 1, 2, "hello".data, "th"⟩], []⟩
    (List.mem_singleton.mpr rfl)
  exact ⟨h.1, h.2.2.2.2 "net" rfl ⟨"cid1", 0, [], 1, 2, "hello".data, "th"⟩
    (List.mem_singleton.mpr rfl)⟩

/-! ## C9: deleting an absent document is a no-op -/

/-- C9: for every store state and every `docId` with no row in `docs`,
`delete_doc` returns without error and leaves every table unchanged. -/
theorem deleteDoc_absent_noop (st : Store) (docId : String)
    (h : st.docs.find? (fun r => r.docId = docId) = none) :
    deleteDoc st docId = st := by
  simp [deleteDoc, h]

/-- Witness for C9 at a concrete store and id. -/
theorem deleteDoc_absent_noop_witness :
    deleteDoc ⟨[], [], [], [], [], [], []⟩ "missing" = ⟨[], [], [], [], [], [], []⟩ :=
  deleteDoc_absent_noop ⟨[], [], [], [], [], [], []⟩ "missing" (by rfl)

end KB
